import Mathlib

/-!
Verification of the TodoMaster task-persistence layer (todomaster/storage.py
and todomaster/tasks.py), shallowly embedded in Lean.

The SQLite table is modelled as a list of rows plus an auto-increment
counter.  Timestamps are persisted as ISO text exactly as the code does
(`datetime.isoformat` on write, `datetime.fromisoformat` on read), and all
SQL comparisons on timestamp columns are TEXT comparisons under the BINARY
collation, modelled by a byte-order comparator on character lists.
-/

namespace TodoMaster

/-- SQLite BINARY-collation comparison of two TEXT values, as code point
order on the underlying character lists (memcmp on UTF-8 bytes agrees with
code point order). -/
def listLtB : List Char → List Char → Bool
  | [], [] => false
  | [], _ :: _ => true
  | _ :: _, [] => false
  | c :: cs, d :: ds =>
    if c.toNat < d.toNat then true
    else if d.toNat < c.toNat then false
    else listLtB cs ds

/-- TEXT strict comparison at the String level. -/
def strLtB (s t : String) : Bool := listLtB s.data t.data

/-- TEXT non-strict comparison at the String level. -/
def strLeB (s t : String) : Bool := !listLtB t.data s.data

/-- Comparison on nullable TEXT values: NULL sorts before every value,
as SQLite does. -/
def optLeB : Option String → Option String → Bool
  | none, _ => true
  | some _, none => false
  | some a, some b => strLeB a b

/-- The decimal digit characters. -/
def digitChar : Nat → Char
  | 0 => '0' | 1 => '1' | 2 => '2' | 3 => '3' | 4 => '4'
  | 5 => '5' | 6 => '6' | 7 => '7' | 8 => '8' | _ => '9'

/-- Value of a decimal digit character. -/
def digitVal? (c : Char) : Option Nat :=
  if c = '0' then some 0 else if c = '1' then some 1
  else if c = '2' then some 2 else if c = '3' then some 3
  else if c = '4' then some 4 else if c = '5' then some 5
  else if c = '6' then some 6 else if c = '7' then some 7
  else if c = '8' then some 8 else if c = '9' then some 9
  else none

/-- `n` printed in exactly `k` decimal digits with leading zeros, the way
`datetime.isoformat` pads each component. -/
def padNum : Nat → Nat → List Char
  | 0, _ => []
  | k + 1, n => digitChar (n / 10 ^ k) :: padNum k (n % 10 ^ k)

/-- Read exactly `k` decimal digits, returning the value and the rest of
the input. -/
def parseDigits : Nat → List Char → Option (Nat × List Char)
  | 0, l => some (0, l)
  | k + 1, l =>
    match l with
    | [] => none
    | c :: r =>
      match digitVal? c with
      | none => none
      | some v =>
        match parseDigits k r with
        | none => none
        | some (n, rest) => some (v * 10 ^ k + n, rest)

/-- Consume one expected character. -/
def expectChar (c : Char) : List Char → Option (List Char)
  | [] => none
  | d :: r => if d = c then some r else none

/-- Calendar date. -/
structure Date where
  year : Nat
  month : Nat
  day : Nat
deriving DecidableEq

/-- Gregorian leap year rule, as in Python's `datetime` module. -/
def isLeapYear (y : Nat) : Bool :=
  y % 4 = 0 && (y % 100 ≠ 0 || y % 400 = 0)

/-- Days in a month, as in Python's `datetime` module. -/
def daysInMonth (y m : Nat) : Nat :=
  if m = 2 then (if isLeapYear y then 29 else 28)
  else if m = 4 ∨ m = 6 ∨ m = 9 ∨ m = 11 then 30
  else 31

/-- `date + timedelta(days=1)`. -/
def Date.nextDay (d : Date) : Date :=
  if d.day < daysInMonth d.year d.month then ⟨d.year, d.month, d.day + 1⟩
  else if d.month < 12 then ⟨d.year, d.month + 1, 1⟩
  else ⟨d.year + 1, 1, 1⟩

/-- The ranges Python's `datetime` enforces on a date. -/
def Date.ValidD (d : Date) : Prop :=
  1 ≤ d.year ∧ d.year ≤ 9999 ∧ 1 ≤ d.month ∧ d.month ≤ 12 ∧
    1 ≤ d.day ∧ d.day ≤ daysInMonth d.year d.month

/-- Naive `datetime.datetime` value (the code never attaches a timezone). -/
structure DateTime where
  year : Nat
  month : Nat
  day : Nat
  hour : Nat
  minute : Nat
  second : Nat
  usec : Nat
deriving DecidableEq

/-- The calendar date of a datetime (`.date()`). -/
def DateTime.dateOf (d : DateTime) : Date := ⟨d.year, d.month, d.day⟩

/-- The ranges Python's `datetime` enforces on a datetime. -/
def DateTime.Valid (d : DateTime) : Prop :=
  d.dateOf.ValidD ∧ d.hour ≤ 23 ∧ d.minute ≤ 59 ∧ d.second ≤ 59 ∧
    d.usec ≤ 999999

/-- Numeric key ordering dates chronologically. -/
def dateKey (d : Date) : Nat := (d.year * 100 + d.month) * 100 + d.day

/-- Numeric key for the time of day, microsecond precision. -/
def timeKey (d : DateTime) : Nat := (d.hour * 100 + d.minute) * 100 + d.second

/-- Numeric key ordering datetimes chronologically. -/
def keyNat (d : DateTime) : Nat :=
  (dateKey d.dateOf * 1000000 + timeKey d) * 1000000 + d.usec

/-- Midnight at the start of the given calendar day. -/
def startOfDay (d : Date) : DateTime := ⟨d.year, d.month, d.day, 0, 0, 0, 0⟩

/-- `date.isoformat()`: the text YYYY-MM-DD. -/
def dateData (dt : Date) : List Char :=
  padNum 4 dt.year ++ '-' :: (padNum 2 dt.month ++ '-' :: padNum 2 dt.day)

/-- The HH:MM:SS portion of `datetime.isoformat()`. -/
def timeData (d : DateTime) : List Char :=
  padNum 2 d.hour ++ ':' :: (padNum 2 d.minute ++ ':' :: padNum 2 d.second)

/-- The fractional-seconds portion of `datetime.isoformat()`: omitted when
the microsecond field is zero, else a dot and six digits. -/
def fracData (us : Nat) : List Char :=
  if us = 0 then [] else '.' :: padNum 6 us

/-- `datetime.isoformat()` as a character list. -/
def isoData (d : DateTime) : List Char :=
  dateData d.dateOf ++ 'T' :: (timeData d ++ fracData d.usec)

/-- The YYYY-MM-DDTHH:MM:SS part shared by every text `fromisoformat`
accepts here. -/
def isoCore (d : DateTime) : List Char :=
  dateData d.dateOf ++ 'T' :: timeData d

/-- The fractional tails under which a text parses to microsecond value
`us`: either nothing (then `us` is zero) or a dot and six digits. -/
def tailOk (us : Nat) (t : List Char) : Prop :=
  (us = 0 ∧ t = []) ∨ t = '.' :: padNum 6 us

/-- `datetime.isoformat()` as a String. -/
def isoStr (d : DateTime) : String := String.mk (isoData d)

/-- `date.isoformat()` as a String. -/
def dateIsoStr (d : Date) : String := String.mk (dateData d)

/-- SQLite's `datetime('now')`: YYYY-MM-DD HH:MM:SS with a space separator
and no fractional seconds, for the instant `d` (expressed in UTC). -/
def sqliteNowStr (d : DateTime) : String :=
  String.mk (dateData d.dateOf ++ ' ' :: timeData d)

instance (d : Date) : Decidable d.ValidD := by
  unfold Date.ValidD; infer_instance

instance (d : DateTime) : Decidable d.Valid := by
  unfold DateTime.Valid; infer_instance

/-- `datetime.fromisoformat` on the texts this program writes: either
YYYY-MM-DDTHH:MM:SS or the same with a dot and six fractional digits,
validating every component's range. -/
def parseIso (l : List Char) : Option DateTime :=
  (parseDigits 4 l).bind fun (y, r1) =>
  (expectChar '-' r1).bind fun r2 =>
  (parseDigits 2 r2).bind fun (mo, r3) =>
  (expectChar '-' r3).bind fun r4 =>
  (parseDigits 2 r4).bind fun (dd, r5) =>
  (expectChar 'T' r5).bind fun r6 =>
  (parseDigits 2 r6).bind fun (h, r7) =>
  (expectChar ':' r7).bind fun r8 =>
  (parseDigits 2 r8).bind fun (mi, r9) =>
  (expectChar ':' r9).bind fun r10 =>
  (parseDigits 2 r10).bind fun (s, r11) =>
  match r11 with
  | [] =>
    if (DateTime.mk y mo dd h mi s 0).Valid then
      some (DateTime.mk y mo dd h mi s 0)
    else none
  | '.' :: r12 =>
    (parseDigits 6 r12).bind fun (us, r13) =>
    (match r13 with
     | [] =>
       if (DateTime.mk y mo dd h mi s us).Valid then
         some (DateTime.mk y mo dd h mi s us)
       else none
     | _ :: _ => none)
  | _ :: _ => none

/-- `parseIso` on a String. -/
def fromIso (s : String) : Option DateTime := parseIso s.data

/-- ASCII lower-casing of one character, the folding SQLite's LIKE uses. -/
def asciiLower (c : Char) : Char :=
  if 65 ≤ c.toNat ∧ c.toNat ≤ 90 then Char.ofNat (c.toNat + 32) else c

/-- SQLite LIKE matching of a pattern against a text: `%` matches any
sequence (equivalently, the rest of the pattern must match some suffix of
the text), `_` any single character, and other characters match up to
ASCII case folding. -/
def likeM : List Char → List Char → Bool
  | [], s => s.isEmpty
  | '%' :: p', s => s.tails.any fun t => likeM p' t
  | '_' :: p', s =>
    match s with
    | [] => false
    | _ :: s' => likeM p' s'
  | c :: p', s =>
    match s with
    | [] => false
    | d :: s' => (asciiLower c = asciiLower d) && likeM p' s'

/-- The LIKE pattern the code builds for a query: percent, query, percent. -/
def patOf (q : String) : List Char := '%' :: (q.data ++ ['%'])

/-- `q` has none of the LIKE wildcard characters. -/
def NoWild (q : String) : Prop := '%' ∉ q.data ∧ '_' ∉ q.data

instance (q : String) : Decidable (NoWild q) := by
  unfold NoWild
  infer_instance

/-- `hasLead q s`: the text `s` starts with `q`. -/
def hasLead : List Char → List Char → Bool
  | [], _ => true
  | _ :: _, [] => false
  | c :: q, d :: s => (c = d) && hasLead q s

/-- `hasSub q s`: the text `q` occurs contiguously inside `s`. -/
def hasSub (q s : List Char) : Bool :=
  hasLead q s ||
    match s with
    | [] => false
    | _ :: s' => hasSub q s'

/-- ASCII-case-insensitive substring containment of one string in another:
the reading of "case-insensitive substring match" against SQLite's LIKE. -/
def containsCI (q s : String) : Bool :=
  hasSub (q.data.map asciiLower) (s.data.map asciiLower)

/-- Python's `",".join` on character lists. -/
def joinComma : List (List Char) → List Char
  | [] => []
  | [x] => x
  | x :: xs => x ++ ',' :: joinComma xs

/-- Python's `str.split(",")` on character lists. -/
def splitComma : List Char → List (List Char)
  | [] => [[]]
  | c :: rest =>
    if c = ',' then [] :: splitComma rest
    else
      match splitComma rest with
      | [] => [[c]]
      | g :: gs => (c :: g) :: gs

/-- The tag-serialisation of `_task_to_row`: `",".join(tags) if tags else
None` (an empty tag list is stored as NULL). -/
def joinTags (tags : List String) : Option String :=
  match tags with
  | [] => none
  | _ :: _ => some (String.mk (joinComma (tags.map String.data)))

/-- The tag-deserialisation of `_task_from_row`: `tags.split(",") if tags
else []` (NULL or the empty string give an empty list). -/
def splitTags (s : Option String) : List String :=
  match s with
  | none => []
  | some t => if t = "" then [] else (splitComma t.data).map String.mk

/-- The serialised, comma-joined tag text of a tag list. -/
def tagText (tags : List String) : String :=
  String.mk (joinComma (tags.map String.data))

/-- The closed priority enumeration. -/
inductive Priority where
  | low
  | medium
  | high
deriving DecidableEq

/-- The `.value` attribute of the enumeration. -/
def Priority.value : Priority → String
  | .low => "low"
  | .medium => "medium"
  | .high => "high"

/-- `Priority(text)`: recover the member from its value, failing on any
other text, as the enum constructor call in `_task_from_row` does. -/
def Priority.ofValue? (s : String) : Option Priority :=
  if s = "low" then some .low
  else if s = "medium" then some .medium
  else if s = "high" then some .high
  else none

/-- The Task dataclass of tasks.py. -/
structure Task where
  description : String
  priority : Priority
  due_date : Option DateTime
  completed : Bool
  tags : List String
  id : Option Nat
  created_at : Option DateTime
  updated_at : Option DateTime
  completed_at : Option DateTime
deriving DecidableEq

/-- `Task.is_due_today`: the due date is set and its calendar date equals
today's; the completed flag is not consulted. `now` is the ambient clock
value read inside the property. -/
def Task.is_due_today (t : Task) (now : DateTime) : Bool :=
  match t.due_date with
  | none => false
  | some d => d.dateOf = now.dateOf

/-- `Task.add_tag`: append the tag if it is not already present (exact
string comparison) and refresh `updated_at` only in that case.  `now` is
the ambient clock value read when a change occurs. -/
def Task.add_tag (t : Task) (tag : String) (now : DateTime) : Task :=
  if tag ∈ t.tags then t
  else { t with tags := t.tags ++ [tag], updated_at := some now }

/-- One row of the `tasks` table, with the column types the schema and the
INSERT/UPDATE statements produce: TEXT timestamps, nullable TEXT tags. -/
structure Row where
  id : Nat
  description : String
  priority : String
  due_date : Option String
  completed : Bool
  tags : Option String
  created_at : Option String
  updated_at : Option String
  completed_at : Option String
deriving DecidableEq

/-- The database state: the rows of the single `tasks` table in insertion
order, plus the next value of the auto-increment id. -/
structure DB where
  rows : List Row
  nextId : Nat
deriving DecidableEq

/-- The stats dictionary returned by `get_task_stats`. -/
structure Stats where
  total : Nat
  pending : Nat
  completed : Nat
  overdue : Nat
deriving DecidableEq

namespace Storage

/-- `Storage._task_to_row`, combined with the id the INSERT assigns: each
field serialised exactly as the code does (`isoformat` on datetimes, the
truthiness guards on tags). -/
def _task_to_row (t : Task) (id : Nat) : Row :=
  { id := id
    description := t.description
    priority := t.priority.value
    due_date := t.due_date.map isoStr
    completed := t.completed
    tags := joinTags t.tags
    created_at := t.created_at.map isoStr
    updated_at := t.updated_at.map isoStr
    completed_at := t.completed_at.map isoStr }

/-- `datetime.fromisoformat(x)` applied to a nullable column with no
guard: a NULL (or malformed text) raises, modelled as `none`. -/
def tsParse : Option String → Option DateTime
  | none => none
  | some s => fromIso s

/-- `datetime.fromisoformat(x) if x else None` on a nullable column: NULL
and the empty string give None, other text is parsed (a parse failure
raises, modelled as `none` of the outer Option). -/
def optParse : Option String → Option (Option DateTime)
  | none => some none
  | some s => if s = "" then some none else (fromIso s).map some

/-- `Storage._task_from_row`.  The Python code raises on a NULL or
malformed `created_at`/`updated_at` or an unknown priority text; a raised
exception is modelled as `none`. -/
def _task_from_row (r : Row) : Option Task :=
  (Priority.ofValue? r.priority).bind fun p =>
  (optParse r.due_date).bind fun dd =>
  (tsParse r.created_at).bind fun ca =>
  (tsParse r.updated_at).bind fun ua =>
  (optParse r.completed_at).bind fun cca =>
  some
    { description := r.description
      priority := p
      due_date := dd
      completed := r.completed
      tags := splitTags r.tags
      id := some r.id
      created_at := some ca
      updated_at := some ua
      completed_at := cca }

/-- Collect a list of optional results, failing if any element failed:
the effect of mapping `_task_from_row` over fetched rows, where a raise
on any row aborts the whole call. -/
def allSome {α : Type} : List (Option α) → Option (List α)
  | [] => some []
  | none :: _ => none
  | some a :: xs =>
    match allSome xs with
    | none => none
    | some l => some (a :: l)

/-- Convert a fetched row list to tasks. -/
def rowsToTasks (l : List Row) : Option (List Task) :=
  allSome (l.map _task_from_row)

/-- Sort relation for ORDER BY key DESC on a nullable TEXT column (`a`
may be placed before `b`).  SQLite puts NULL last in descending order. -/
def relDesc (key : Row → Option String) (a b : Row) : Prop :=
  optLeB (key b) (key a) = true

/-- Sort relation for ORDER BY key ASC on a nullable TEXT column. -/
def relAsc (key : Row → Option String) (a b : Row) : Prop :=
  optLeB (key a) (key b) = true

instance (key : Row → Option String) : DecidableRel (relDesc key) :=
  fun _ _ => inferInstanceAs (Decidable (_ = true))

instance (key : Row → Option String) : DecidableRel (relAsc key) :=
  fun _ _ => inferInstanceAs (Decidable (_ = true))

/-- ORDER BY key DESC. -/
def orderDescBy (key : Row → Option String) (l : List Row) : List Row :=
  List.insertionSort (relDesc key) l

/-- ORDER BY key ASC. -/
def orderAscBy (key : Row → Option String) (l : List Row) : List Row :=
  List.insertionSort (relAsc key) l

/-- The WHERE clause of `get_overdue_tasks` and of the overdue count in
`get_task_stats`: completed = FALSE AND due_date IS NOT NULL AND
due_date < bound, a TEXT comparison against the given bound. -/
def overdueRow (bound : String) (r : Row) : Bool :=
  !r.completed &&
    match r.due_date with
    | none => false
    | some s => strLtB s bound

/-- The WHERE clause of `get_tasks_due_today`: completed = FALSE AND
due_date >= today AND due_date < tomorrow (TEXT comparisons; a NULL
due_date fails both). -/
def dueTodayRow (today tomorrow : String) (r : Row) : Bool :=
  !r.completed &&
    match r.due_date with
    | none => false
    | some s => strLeB today s && strLtB s tomorrow

/-- The WHERE clause of `search_tasks`: description LIKE pat OR tags LIKE
pat, where a NULL tags column makes its LIKE non-true. -/
def searchRow (q : String) (r : Row) : Bool :=
  likeM (patOf q) r.description.data ||
    match r.tags with
    | none => false
    | some s => likeM (patOf q) s.data

/-- `Storage.create_task`: INSERT the serialised row, assign the fresh id
on the task, and return it. -/
def create_task (db : DB) (t : Task) : Task × DB :=
  ({ t with id := some db.nextId },
   { rows := db.rows ++ [_task_to_row t db.nextId], nextId := db.nextId + 1 })

/-- `Storage.get_task`: SELECT by id; an absent id gives no task.  (A row
that fails to convert also gives `none`; no claim rests on telling the two
apart.) -/
def get_task (db : DB) (i : Nat) : Option Task :=
  match db.rows.find? (fun r => r.id = i) with
  | none => none
  | some r => _task_from_row r

/-- `Storage.get_all_tasks`: every row, ORDER BY created_at DESC. -/
def get_all_tasks (db : DB) : Option (List Task) :=
  rowsToTasks (orderDescBy Row.created_at db.rows)

/-- `Storage.get_pending_tasks`: WHERE completed = FALSE, ORDER BY
created_at DESC. -/
def get_pending_tasks (db : DB) : Option (List Task) :=
  rowsToTasks (orderDescBy Row.created_at (db.rows.filter (fun r => !r.completed)))

/-- `Storage.get_completed_tasks`: WHERE completed = TRUE, ORDER BY
completed_at DESC. -/
def get_completed_tasks (db : DB) : Option (List Task) :=
  rowsToTasks (orderDescBy Row.completed_at (db.rows.filter (fun r => r.completed)))

/-- `Storage.get_overdue_tasks`: the bound it compares against is
`datetime.now().isoformat()`, passed here as the text `nowIso`. -/
def get_overdue_tasks (db : DB) (nowIso : String) : Option (List Task) :=
  rowsToTasks (orderAscBy Row.due_date (db.rows.filter (overdueRow nowIso)))

/-- `Storage.get_tasks_due_today`: the bounds are `date.today()` and the
following day, both in `date.isoformat()` form. -/
def get_tasks_due_today (db : DB) (now : DateTime) : Option (List Task) :=
  rowsToTasks
    (orderAscBy Row.due_date
      (db.rows.filter
        (dueTodayRow (dateIsoStr now.dateOf) (dateIsoStr now.dateOf.nextDay))))

/-- `Storage.update_task`: UPDATE every mutable column WHERE id matches
the task's id (no row matches when the task has no id), and return the
task unchanged. -/
def update_task (db : DB) (t : Task) : Task × DB :=
  (t,
   { db with
      rows :=
        db.rows.map fun r =>
          if (match t.id with | none => false | some i => r.id = i) then
            { r with
               description := t.description
               priority := t.priority.value
               due_date := t.due_date.map isoStr
               completed := t.completed
               tags := joinTags t.tags
               updated_at := t.updated_at.map isoStr
               completed_at := t.completed_at.map isoStr }
          else r })

/-- `Storage.delete_task`: DELETE WHERE id = ?, returning whether any row
was removed (`cursor.rowcount > 0`). -/
def delete_task (db : DB) (i : Nat) : DB × Bool :=
  ({ db with rows := db.rows.filter (fun r => r.id ≠ i) },
   db.rows.any (fun r => r.id = i))

/-- `Storage.search_tasks`: WHERE description LIKE %q% OR tags LIKE %q%,
ORDER BY created_at DESC. -/
def search_tasks (db : DB) (q : String) : Option (List Task) :=
  rowsToTasks (orderDescBy Row.created_at (db.rows.filter (searchRow q)))

/-- `Storage.get_task_stats`: the four COUNT queries.  The overdue count
compares due_date against SQLite's `datetime('now')`, whose text form is
`sqliteNowStr` of the current UTC instant. -/
def get_task_stats (db : DB) (now : DateTime) : Stats :=
  { total := db.rows.length
    pending := (db.rows.filter (fun r => !r.completed)).length
    completed := (db.rows.filter (fun r => r.completed)).length
    overdue := (db.rows.filter (overdueRow (sqliteNowStr now))).length }

end Storage

end TodoMaster

namespace TodoMaster

/-! ### Order lemmas for the BINARY-collation comparator -/

theorem listLtB_irrefl (l : List Char) : listLtB l l = false := by
  induction l with
  | nil => rfl
  | cons c cs ih => simp [listLtB, ih]

theorem char_eq_of_toNat_eq {c d : Char} (h : c.toNat = d.toNat) : c = d := by
  rw [← Char.ofNat_toNat c, ← Char.ofNat_toNat d, h]

theorem listLtB_cons (c d : Char) (cs ds : List Char) :
    (listLtB (c :: cs) (d :: ds) = true ↔
      c.toNat < d.toNat ∨ (c = d ∧ listLtB cs ds = true)) := by
  simp only [listLtB]
  split_ifs with h1 h2
  · simp only [true_iff]
    exact Or.inl h1
  · simp only [false_iff]
    rintro (h | ⟨he, _⟩)
    · omega
    · rw [he] at h2
      omega
  · have he : c = d := char_eq_of_toNat_eq (by omega)
    subst he
    simp [Nat.lt_irrefl]

theorem listLtB_asymm {x y : List Char} (h : listLtB x y = true) :
    listLtB y x = false := by
  induction x generalizing y with
  | nil =>
    cases y with
    | nil => simp [listLtB] at h
    | cons d ds => rfl
  | cons c cs ih =>
    cases y with
    | nil => simp [listLtB] at h
    | cons d ds =>
      rw [listLtB_cons] at h
      cases h' : listLtB (d :: ds) (c :: cs) with
      | false => rfl
      | true =>
        exfalso
        rw [listLtB_cons] at h'
        rcases h with hlt | ⟨he, hcs⟩ <;> rcases h' with hlt' | ⟨he', hds⟩
        · omega
        · rw [he'] at hlt
          omega
        · rw [he] at hlt'
          omega
        · rw [ih hcs] at hds
          exact Bool.false_ne_true hds

theorem listLtB_conn {x y : List Char} (hxy : listLtB x y = false)
    (hyx : listLtB y x = false) : x = y := by
  induction x generalizing y with
  | nil =>
    cases y with
    | nil => rfl
    | cons d ds => simp [listLtB] at hxy
  | cons c cs ih =>
    cases y with
    | nil => simp [listLtB] at hyx
    | cons d ds =>
      rw [← Bool.not_eq_true, listLtB_cons] at hxy hyx
      push_neg at hxy hyx
      have he : c = d := char_eq_of_toNat_eq (by omega)
      subst he
      have h1 : listLtB cs ds = false := by
        have := hxy.2 rfl
        simp [this]
      have h2 : listLtB ds cs = false := by
        have := hyx.2 rfl
        simp [this]
      rw [ih h1 h2]

theorem listLtB_trans {x y z : List Char} (h1 : listLtB x y = true)
    (h2 : listLtB y z = true) : listLtB x z = true := by
  induction x generalizing y z with
  | nil =>
    cases y with
    | nil => simp [listLtB] at h1
    | cons d ds =>
      cases z with
      | nil => simp [listLtB] at h2
      | cons e es => rfl
  | cons c cs ih =>
    cases y with
    | nil => simp [listLtB] at h1
    | cons d ds =>
      cases z with
      | nil => simp [listLtB] at h2
      | cons e es =>
        rw [listLtB_cons] at h1 h2 ⊢
        rcases h1 with hlt | ⟨he, hcs⟩ <;> rcases h2 with hlt' | ⟨he', hds⟩
        · exact Or.inl (by omega)
        · rw [he'] at hlt
          exact Or.inl hlt
        · rw [he]
          exact Or.inl hlt'
        · exact Or.inr ⟨he.trans he', ih hcs hds⟩

theorem listLtB_cons_same (c : Char) (u v : List Char) :
    listLtB (c :: u) (c :: v) = listLtB u v := by
  simp [listLtB]

theorem listLtB_append {x y : List Char} (u v : List Char)
    (h : x.length = y.length) :
    (listLtB (x ++ u) (y ++ v) = true ↔
      listLtB x y = true ∨ (x = y ∧ listLtB u v = true)) := by
  induction x generalizing y with
  | nil =>
    cases y with
    | nil => simp [listLtB]
    | cons d ds => simp at h
  | cons c cs ih =>
    cases y with
    | nil => simp at h
    | cons d ds =>
      simp only [List.length_cons, Nat.add_right_cancel_iff] at h
      simp only [List.cons_append]
      rw [listLtB_cons, listLtB_cons, ih h]
      simp only [List.cons.injEq]
      tauto

/-! ### Digit and fixed-width decimal lemmas -/

theorem toNat_digitChar {n : Nat} (h : n < 10) :
    (digitChar n).toNat = 48 + n := by
  interval_cases n <;> rfl

theorem digitVal?_digitChar {n : Nat} (h : n < 10) :
    digitVal? (digitChar n) = some n := by
  interval_cases n <;> rfl

theorem digitVal?_eq_some {c : Char} {v : Nat} (h : digitVal? c = some v) :
    v < 10 ∧ c = digitChar v := by
  unfold digitVal? at h
  split_ifs at h with h0 h1 h2 h3 h4 h5 h6 h7 h8 h9
  · obtain rfl := (Option.some.inj h).symm
    subst h0
    exact ⟨by omega, by decide⟩
  · obtain rfl := (Option.some.inj h).symm
    subst h1
    exact ⟨by omega, by decide⟩
  · obtain rfl := (Option.some.inj h).symm
    subst h2
    exact ⟨by omega, by decide⟩
  · obtain rfl := (Option.some.inj h).symm
    subst h3
    exact ⟨by omega, by decide⟩
  · obtain rfl := (Option.some.inj h).symm
    subst h4
    exact ⟨by omega, by decide⟩
  · obtain rfl := (Option.some.inj h).symm
    subst h5
    exact ⟨by omega, by decide⟩
  · obtain rfl := (Option.some.inj h).symm
    subst h6
    exact ⟨by omega, by decide⟩
  · obtain rfl := (Option.some.inj h).symm
    subst h7
    exact ⟨by omega, by decide⟩
  · obtain rfl := (Option.some.inj h).symm
    subst h8
    exact ⟨by omega, by decide⟩
  · obtain rfl := (Option.some.inj h).symm
    subst h9
    exact ⟨by omega, by decide⟩

theorem length_padNum (k n : Nat) : (padNum k n).length = k := by
  induction k generalizing n with
  | zero => rfl
  | succ k ih => simp [padNum, ih]

theorem nat_lt_iff_div_mod {m : Nat} (hm : 0 < m) (a b : Nat) :
    a < b ↔ (a / m < b / m ∨ (a / m = b / m ∧ a % m < b % m)) := by
  have key : ∀ x y : Nat, x / m < y / m → x < y := by
    intro x y hxy
    have h1 : m * (x / m + 1) ≤ m * (y / m) := Nat.mul_le_mul_left m hxy
    rw [Nat.mul_add, Nat.mul_one] at h1
    have hx := Nat.div_add_mod x m
    have hy := Nat.div_add_mod y m
    have hxm := Nat.mod_lt x hm
    omega
  have key2 : ∀ x y : Nat, x / m = y / m → x % m < y % m → x < y := by
    intro x y hq hr
    have hx := Nat.div_add_mod x m
    have hy := Nat.div_add_mod y m
    rw [← hq] at hy
    omega
  constructor
  · intro h
    rcases Nat.lt_trichotomy (a / m) (b / m) with h1 | h1 | h1
    · exact Or.inl h1
    · rcases Nat.lt_trichotomy (a % m) (b % m) with h2 | h2 | h2
      · exact Or.inr ⟨h1, h2⟩
      · exfalso
        have ha := Nat.div_add_mod a m
        have hb := Nat.div_add_mod b m
        rw [← h1] at hb
        omega
      · exact absurd (key2 b a h1.symm h2) (by omega)
    · exact absurd (key b a h1) (by omega)
  · rintro (h | ⟨h1, h2⟩)
    · exact key a b h
    · exact key2 a b h1 h2

theorem listLtB_padNum (k : Nat) {a b : Nat} (ha : a < 10 ^ k)
    (hb : b < 10 ^ k) :
    (listLtB (padNum k a) (padNum k b) = true ↔ a < b) := by
  induction k generalizing a b with
  | zero =>
    simp only [pow_zero, Nat.lt_one_iff] at ha hb
    subst ha; subst hb
    simp [padNum, listLtB]
  | succ k ih =>
    have hp : (0:Nat) < 10 ^ k := Nat.pos_pow_of_pos k (by omega)
    have hpow : (10:Nat) ^ (k + 1) = 10 * 10 ^ k := by ring
    have hda : a / 10 ^ k < 10 := by
      rw [Nat.div_lt_iff_lt_mul hp]
      omega
    have hdb : b / 10 ^ k < 10 := by
      rw [Nat.div_lt_iff_lt_mul hp]
      omega
    simp only [padNum, listLtB, toNat_digitChar hda, toNat_digitChar hdb]
    rw [nat_lt_iff_div_mod hp a b]
    split_ifs with h1 h2
    · simp
      omega
    · simp
      omega
    · have hq : a / 10 ^ k = b / 10 ^ k := by omega
      rw [ih (Nat.mod_lt a hp) (Nat.mod_lt b hp)]
      simp [hq]

theorem padNum_inj (k : Nat) {a b : Nat} (ha : a < 10 ^ k) (hb : b < 10 ^ k)
    (h : padNum k a = padNum k b) : a = b := by
  rcases Nat.lt_trichotomy a b with hl | he | hl
  · rw [← listLtB_padNum k ha hb, h, listLtB_irrefl] at hl
    exact absurd hl (by simp)
  · exact he
  · rw [← listLtB_padNum k hb ha, h, listLtB_irrefl] at hl
    exact absurd hl (by simp)

theorem parseDigits_padNum (k : Nat) {n : Nat} (rest : List Char)
    (h : n < 10 ^ k) :
    parseDigits k (padNum k n ++ rest) = some (n, rest) := by
  induction k generalizing n with
  | zero =>
    simp only [pow_zero, Nat.lt_one_iff] at h
    subst h
    rfl
  | succ k ih =>
    have hp : (0:Nat) < 10 ^ k := Nat.pos_pow_of_pos k (by omega)
    have hpow : (10:Nat) ^ (k + 1) = 10 * 10 ^ k := by ring
    have hd : n / 10 ^ k < 10 := by
      rw [Nat.div_lt_iff_lt_mul hp]
      omega
    simp only [padNum, List.cons_append, parseDigits,
      digitVal?_digitChar hd, ih (Nat.mod_lt n hp)]
    rw [Nat.mul_comm (n / 10 ^ k) (10 ^ k), Nat.div_add_mod]

theorem parseDigits_some {k : Nat} {l rest : List Char} {n : Nat}
    (h : parseDigits k l = some (n, rest)) :
    n < 10 ^ k ∧ l = padNum k n ++ rest := by
  induction k generalizing l n with
  | zero =>
    simp only [parseDigits, Option.some_inj, Prod.mk.injEq] at h
    obtain ⟨h1, h2⟩ := h
    subst h1; subst h2
    simp [padNum]
  | succ k ih =>
    match l with
    | [] => simp [parseDigits] at h
    | c :: r =>
      simp only [parseDigits] at h
      match hv : digitVal? c with
      | none => rw [hv] at h; simp at h
      | some v =>
        rw [hv] at h
        match hr : parseDigits k r with
        | none => rw [hr] at h; simp at h
        | some (m, rest') =>
          rw [hr] at h
          simp only [Option.some_inj, Prod.mk.injEq] at h
          obtain ⟨hn, hrest⟩ := h
          subst hrest
          obtain ⟨hm, hrl⟩ := ih hr
          obtain ⟨hv10, hc⟩ := digitVal?_eq_some hv
          subst hc
          have hp : (0:Nat) < 10 ^ k := Nat.pos_pow_of_pos k (by omega)
          constructor
          · calc n = v * 10 ^ k + m := hn.symm
              _ < v * 10 ^ k + 10 ^ k := by omega
              _ = (v + 1) * 10 ^ k := by ring
              _ ≤ 10 * 10 ^ k := Nat.mul_le_mul_right _ (by omega)
              _ = 10 ^ (k + 1) := by rw [pow_succ, Nat.mul_comm]
          · have hdiv : n / 10 ^ k = v := by
              rw [← hn, Nat.add_comm (v * 10 ^ k) m, Nat.mul_comm v (10 ^ k),
                Nat.add_mul_div_left _ _ hp, Nat.div_eq_of_lt hm]
              omega
            have hmod : n % 10 ^ k = m := by
              rw [← hn, Nat.add_comm (v * 10 ^ k) m, Nat.mul_comm v (10 ^ k),
                Nat.add_mul_mod_self_left]
              exact Nat.mod_eq_of_lt hm
            simp only [padNum, hdiv, hmod, List.cons_append, hrl]

end TodoMaster

namespace TodoMaster

/-! ### Ordering the serialised timestamp texts -/

theorem padNum_eq_iff (k : Nat) {a b : Nat} (ha : a < 10 ^ k)
    (hb : b < 10 ^ k) : (padNum k a = padNum k b) ↔ a = b :=
  ⟨padNum_inj k ha hb, fun h => by rw [h]⟩

theorem eq_iff_of_lt_iffs {x y : List Char} {p q : Nat}
    (h1 : listLtB x y = true ↔ p < q) (h2 : listLtB y x = true ↔ q < p) :
    (x = y ↔ p = q) := by
  constructor
  · intro he
    subst he
    have hpq : ¬ p < q := fun hlt => by
      have := h1.mpr hlt
      rw [listLtB_irrefl] at this
      exact Bool.false_ne_true this
    have hqp : ¬ q < p := fun hlt => by
      have := h2.mpr hlt
      rw [listLtB_irrefl] at this
      exact Bool.false_ne_true this
    omega
  · intro he
    apply listLtB_conn
    · cases hxy : listLtB x y with
      | false => rfl
      | true =>
        exfalso
        have := h1.mp hxy
        omega
    · cases hyx : listLtB y x with
      | false => rfl
      | true =>
        exfalso
        have := h2.mp hyx
        omega

theorem daysInMonth_le (y m : Nat) : daysInMonth y m ≤ 31 := by
  unfold daysInMonth
  split_ifs <;> omega

theorem dateData_lt_iff {a b : Date} (ha : a.ValidD) (hb : b.ValidD) :
    (listLtB (dateData a) (dateData b) = true ↔ dateKey a < dateKey b) := by
  obtain ⟨ha1, ha2, ha3, ha4, ha5, ha6⟩ := ha
  obtain ⟨hb1, hb2, hb3, hb4, hb5, hb6⟩ := hb
  have hda := daysInMonth_le a.year a.month
  have hdb := daysInMonth_le b.year b.month
  have hya : a.year < 10 ^ 4 := by norm_num; omega
  have hyb : b.year < 10 ^ 4 := by norm_num; omega
  have hma : a.month < 10 ^ 2 := by norm_num; omega
  have hmb : b.month < 10 ^ 2 := by norm_num; omega
  have hdaa : a.day < 10 ^ 2 := by norm_num; omega
  have hdbb : b.day < 10 ^ 2 := by norm_num; omega
  unfold dateData
  rw [listLtB_append _ _ (by rw [length_padNum, length_padNum]),
    listLtB_padNum 4 hya hyb, padNum_eq_iff 4 hya hyb, listLtB_cons_same,
    listLtB_append _ _ (by rw [length_padNum, length_padNum]),
    listLtB_padNum 2 hma hmb, padNum_eq_iff 2 hma hmb, listLtB_cons_same,
    listLtB_padNum 2 hdaa hdbb]
  unfold dateKey
  omega

theorem dateData_eq_iff {a b : Date} (ha : a.ValidD) (hb : b.ValidD) :
    (dateData a = dateData b ↔ dateKey a = dateKey b) :=
  eq_iff_of_lt_iffs (dateData_lt_iff ha hb) (dateData_lt_iff hb ha)

theorem timeData_lt_iff {a b : DateTime}
    (ha : a.hour ≤ 23 ∧ a.minute ≤ 59 ∧ a.second ≤ 59)
    (hb : b.hour ≤ 23 ∧ b.minute ≤ 59 ∧ b.second ≤ 59) :
    (listLtB (timeData a) (timeData b) = true ↔ timeKey a < timeKey b) := by
  obtain ⟨ha1, ha2, ha3⟩ := ha
  obtain ⟨hb1, hb2, hb3⟩ := hb
  have h1 : a.hour < 10 ^ 2 := by norm_num; omega
  have h2 : b.hour < 10 ^ 2 := by norm_num; omega
  have h3 : a.minute < 10 ^ 2 := by norm_num; omega
  have h4 : b.minute < 10 ^ 2 := by norm_num; omega
  have h5 : a.second < 10 ^ 2 := by norm_num; omega
  have h6 : b.second < 10 ^ 2 := by norm_num; omega
  unfold timeData
  rw [listLtB_append _ _ (by rw [length_padNum, length_padNum]),
    listLtB_padNum 2 h1 h2, padNum_eq_iff 2 h1 h2, listLtB_cons_same,
    listLtB_append _ _ (by rw [length_padNum, length_padNum]),
    listLtB_padNum 2 h3 h4, padNum_eq_iff 2 h3 h4, listLtB_cons_same,
    listLtB_padNum 2 h5 h6]
  unfold timeKey
  omega

theorem timeData_eq_iff {a b : DateTime}
    (ha : a.hour ≤ 23 ∧ a.minute ≤ 59 ∧ a.second ≤ 59)
    (hb : b.hour ≤ 23 ∧ b.minute ≤ 59 ∧ b.second ≤ 59) :
    (timeData a = timeData b ↔ timeKey a = timeKey b) :=
  eq_iff_of_lt_iffs (timeData_lt_iff ha hb) (timeData_lt_iff hb ha)

theorem tail_lt_mono {us us' : Nat} {t t' : List Char} (ht : tailOk us t)
    (ht' : tailOk us' t') (hb : us < 10 ^ 6) (hb' : us' < 10 ^ 6)
    (h : us < us') : listLtB t t' = true := by
  have hne : us' ≠ 0 := by omega
  have ht'2 : t' = '.' :: padNum 6 us' := by
    rcases ht' with ⟨h0, _⟩ | h1
    · omega
    · exact h1
  subst ht'2
  rcases ht with ⟨h0, h2⟩ | h2 <;> subst h2
  · rfl
  · rw [listLtB_cons_same, listLtB_padNum 6 hb hb']
    exact h

theorem timeKey_le {d : DateTime} (h : d.Valid) : timeKey d ≤ 235959 := by
  obtain ⟨_, h1, h2, h3, _⟩ := h
  unfold timeKey
  omega

theorem isoCore_append (d : DateTime) (t : List Char) :
    isoCore d ++ t = dateData d.dateOf ++ 'T' :: (timeData d ++ t) := by
  unfold isoCore
  simp [List.append_assoc]

theorem isoLike_lt_mono {d e : DateTime} {td te : List Char} (hd : d.Valid)
    (he : e.Valid) (htd : tailOk d.usec td) (hte : tailOk e.usec te)
    (h : keyNat d < keyNat e) :
    listLtB (isoCore d ++ td) (isoCore e ++ te) = true := by
  have hta := timeKey_le hd
  have htb := timeKey_le he
  have hua : d.usec < 10 ^ 6 := by
    have := hd.2.2.2.2
    norm_num
    omega
  have hub : e.usec < 10 ^ 6 := by
    have := he.2.2.2.2
    norm_num
    omega
  have hlex : dateKey d.dateOf < dateKey e.dateOf ∨
      (dateKey d.dateOf = dateKey e.dateOf ∧
        (timeKey d < timeKey e ∨ (timeKey d = timeKey e ∧ d.usec < e.usec))) := by
    unfold keyNat at h
    have h6 : (10:Nat) ^ 6 = 1000000 := by norm_num
    rw [h6] at hua hub
    omega
  rw [isoCore_append, isoCore_append,
    listLtB_append _ _ (by unfold dateData; simp [length_padNum])]
  rcases hlex with hlt | ⟨heq, hrest⟩
  · exact Or.inl ((dateData_lt_iff hd.1 he.1).mpr hlt)
  · refine Or.inr ⟨(dateData_eq_iff hd.1 he.1).mpr heq, ?_⟩
    rw [listLtB_cons_same,
      listLtB_append _ _ (by unfold timeData; simp [length_padNum])]
    have hdt : d.hour ≤ 23 ∧ d.minute ≤ 59 ∧ d.second ≤ 59 :=
      ⟨hd.2.1, hd.2.2.1, hd.2.2.2.1⟩
    have het : e.hour ≤ 23 ∧ e.minute ≤ 59 ∧ e.second ≤ 59 :=
      ⟨he.2.1, he.2.2.1, he.2.2.2.1⟩
    rcases hrest with hlt2 | ⟨heq2, hlt3⟩
    · exact Or.inl ((timeData_lt_iff hdt het).mpr hlt2)
    · exact Or.inr ⟨(timeData_eq_iff hdt het).mpr heq2,
        tail_lt_mono htd hte hua hub hlt3⟩

theorem keyNat_le_of_not_ltB {d e : DateTime} {td te : List Char}
    (hd : d.Valid) (he : e.Valid) (htd : tailOk d.usec td)
    (hte : tailOk e.usec te)
    (h : listLtB (isoCore e ++ te) (isoCore d ++ td) = false) :
    keyNat d ≤ keyNat e := by
  by_contra hc
  push_neg at hc
  rw [isoLike_lt_mono he hd hte htd hc] at h
  simp at h

end TodoMaster

namespace TodoMaster

/-! ### The `isoformat`/`fromisoformat` round trip -/

theorem expectChar_some {c : Char} {l r : List Char}
    (h : expectChar c l = some r) : l = c :: r := by
  cases l with
  | nil => exact Option.noConfusion h
  | cons d l' =>
    simp only [expectChar] at h
    split_ifs at h with hdc
    · rw [hdc, Option.some.inj h]

theorem expectChar_cons (c : Char) (r : List Char) :
    expectChar c (c :: r) = some r := by
  simp [expectChar]

theorem parseDigits_padNum_nil (k : Nat) {n : Nat} (h : n < 10 ^ k) :
    parseDigits k (padNum k n) = some (n, []) := by
  have := parseDigits_padNum k [] h
  rwa [List.append_nil] at this

theorem parseIso_isoData {d : DateTime} (hd : d.Valid) :
    parseIso (isoData d) = some d := by
  obtain ⟨y, mo, dd, hh, mi, ss, us⟩ := d
  simp only [DateTime.Valid, DateTime.dateOf, Date.ValidD] at hd
  obtain ⟨⟨h1, h2, h3, h4, h5, h6⟩, h7, h8, h9, h10⟩ := hd
  have hdm := daysInMonth_le y mo
  have hy : y < 10 ^ 4 := by norm_num; omega
  have hmo : mo < 10 ^ 2 := by norm_num; omega
  have hdd : dd < 10 ^ 2 := by norm_num; omega
  have hho : hh < 10 ^ 2 := by norm_num; omega
  have hmin : mi < 10 ^ 2 := by norm_num; omega
  have hsec : ss < 10 ^ 2 := by norm_num; omega
  have hus : us < 10 ^ 6 := by norm_num; omega
  have hvalid : (DateTime.mk y mo dd hh mi ss us).Valid := by
    simp only [DateTime.Valid, DateTime.dateOf, Date.ValidD]
    exact ⟨⟨h1, h2, h3, h4, h5, h6⟩, h7, h8, h9, h10⟩
  have hiso : isoData (DateTime.mk y mo dd hh mi ss us) =
      padNum 4 y ++ '-' :: (padNum 2 mo ++ '-' :: (padNum 2 dd ++
        'T' :: (padNum 2 hh ++ ':' :: (padNum 2 mi ++ ':' ::
          (padNum 2 ss ++ fracData us))))) := by
    simp [isoData, dateData, timeData, DateTime.dateOf, List.append_assoc]
  rw [hiso]
  unfold parseIso
  simp only [parseDigits_padNum 4 _ hy, Option.some_bind, expectChar_cons,
    parseDigits_padNum 2 _ hmo, parseDigits_padNum 2 _ hdd,
    parseDigits_padNum 2 _ hho, parseDigits_padNum 2 _ hmin,
    parseDigits_padNum 2 _ hsec]
  by_cases hc : us = 0
  · subst hc
    rw [show fracData 0 = [] from rfl]
    simp [hvalid]
  · rw [show fracData us = '.' :: padNum 6 us from by simp [fracData, hc]]
    simp [parseDigits_padNum_nil 6 hus, hvalid]

theorem parseIso_some {l : List Char} {d : DateTime}
    (h : parseIso l = some d) :
    d.Valid ∧ ∃ t, tailOk d.usec t ∧ l = isoCore d ++ t := by
  unfold parseIso at h
  simp only [Option.bind_eq_some, Prod.exists] at h
  obtain ⟨y, r1, hp1, r2, he1, mo, r3, hp2, r4, he2, dd, r5, hp3, r6, he3,
    hh, r7, hp4, r8, he4, mi, r9, hp5, r10, he5, ss, r11, hp6, h⟩ := h
  obtain ⟨hy4, hl⟩ := parseDigits_some hp1
  obtain ⟨hmo2, hr2⟩ := parseDigits_some hp2
  obtain ⟨hdd2, hr4⟩ := parseDigits_some hp3
  obtain ⟨hhh2, hr6⟩ := parseDigits_some hp4
  obtain ⟨hmi2, hr8⟩ := parseDigits_some hp5
  obtain ⟨hss2, hr10⟩ := parseDigits_some hp6
  have hr1 := expectChar_some he1
  have hr3 := expectChar_some he2
  have hr5 := expectChar_some he3
  have hr7 := expectChar_some he4
  have hr9 := expectChar_some he5
  split at h
  · split_ifs at h with hv
    obtain rfl := Option.some.inj h
    refine ⟨hv, [], Or.inl ⟨rfl, rfl⟩, ?_⟩
    subst hl hr1 hr2 hr3 hr4 hr5 hr6 hr7 hr8 hr9 hr10
    simp [isoCore, dateData, timeData, DateTime.dateOf, List.append_assoc]
  · simp only [Option.bind_eq_some, Prod.exists] at h
    obtain ⟨us, r13, hp7, h⟩ := h
    obtain ⟨hus6, hr12⟩ := parseDigits_some hp7
    split at h
    · split_ifs at h with hv
      obtain rfl := Option.some.inj h
      refine ⟨hv, '.' :: padNum 6 us, Or.inr rfl, ?_⟩
      rename_i hr11 _
      subst hl hr1 hr2 hr3 hr4 hr5 hr6 hr7 hr8 hr9 hr10 hr12
      simp [isoCore, dateData, timeData, DateTime.dateOf, List.append_assoc]
    · exact Option.noConfusion h
  · exact Option.noConfusion h

theorem fromIso_isoStr {d : DateTime} (hd : d.Valid) :
    fromIso (isoStr d) = some d :=
  parseIso_isoData hd

theorem fromIso_some {s : String} {d : DateTime} (h : fromIso s = some d) :
    d.Valid ∧ ∃ t, tailOk d.usec t ∧ s.data = isoCore d ++ t :=
  parseIso_some h

theorem isoStr_ne_empty (d : DateTime) : isoStr d ≠ "" := by
  intro hc
  have h2 : isoData d = [] := congrArg String.data hc
  have hlen := congrArg List.length h2
  simp [isoData, dateData, length_padNum] at hlen

/-! ### LIKE matching versus substring containment -/

theorem likeM_nil (s : List Char) : likeM [] s = s.isEmpty := rfl

theorem likeM_pct (p s : List Char) :
    likeM ('%' :: p) s = s.tails.any fun t => likeM p t := rfl

theorem likeM_char_nil {c : Char} (hcp : ¬ c = '%') (hcu : ¬ c = '_')
    (p : List Char) : likeM (c :: p) [] = false := by
  rcases c with ⟨⟨cv⟩⟩
  simp [likeM]

theorem likeM_char_cons {c : Char} (hcp : ¬ c = '%') (hcu : ¬ c = '_')
    (p : List Char) (d : Char) (s' : List Char) :
    likeM (c :: p) (d :: s') = ((asciiLower c = asciiLower d) && likeM p s') := by
  rcases c with ⟨⟨cv⟩⟩
  simp [likeM]

theorem likeM_one_pct (s : List Char) : likeM ['%'] s = true := by
  rw [likeM_pct]
  simp only [List.any_eq_true]
  refine ⟨[], ?_, by simp [likeM_nil]⟩
  rw [List.mem_tails]
  exact List.nil_suffix

theorem likeM_append_pct {q : List Char} (hp : '%' ∉ q) (hu : '_' ∉ q)
    (s : List Char) :
    likeM (q ++ ['%']) s = hasLead (q.map asciiLower) (s.map asciiLower) := by
  induction q generalizing s with
  | nil => simp [likeM_one_pct, hasLead]
  | cons c q' ih =>
    have hcp : ¬ c = '%' := fun he => hp (by rw [he]; exact List.mem_cons_self _ _)
    have hcu : ¬ c = '_' := fun he => hu (by rw [he]; exact List.mem_cons_self _ _)
    have hp' : '%' ∉ q' := fun hm => hp (List.mem_cons_of_mem _ hm)
    have hu' : '_' ∉ q' := fun hm => hu (List.mem_cons_of_mem _ hm)
    cases s with
    | nil => simp [likeM_char_nil hcp hcu, hasLead]
    | cons d s' =>
      rw [List.cons_append, likeM_char_cons hcp hcu, ih hp' hu']
      simp [hasLead]

theorem hasSub_eq_any (q s : List Char) :
    hasSub q s = s.tails.any fun t => hasLead q t := by
  induction s with
  | nil => simp [hasSub, List.tails]
  | cons d s' ih => simp [hasSub, List.tails, ih]

theorem tails_map (f : Char → Char) (s : List Char) :
    (s.map f).tails = s.tails.map (List.map f) := by
  induction s with
  | nil => rfl
  | cons c cs ih => simp [List.tails, ih, Function.comp]

theorem likeM_pat {q : List Char} (hp : '%' ∉ q) (hu : '_' ∉ q)
    (s : List Char) :
    likeM ('%' :: (q ++ ['%'])) s =
      hasSub (q.map asciiLower) (s.map asciiLower) := by
  rw [likeM_pct, hasSub_eq_any, tails_map, Bool.eq_iff_iff]
  simp only [List.any_eq_true, List.mem_map]
  constructor
  · rintro ⟨t, ht, hl⟩
    exact ⟨List.map asciiLower t, ⟨t, ht, rfl⟩, by
      rw [← likeM_append_pct hp hu]; exact hl⟩
  · rintro ⟨t', ⟨t, ht, rfl⟩, hl⟩
    exact ⟨t, ht, by rw [likeM_append_pct hp hu]; exact hl⟩

theorem hasSub_nil_left (s : List Char) : hasSub [] s = true := by
  cases s <;> simp [hasSub, hasLead]

/-! ### Python comma join and split -/

theorem splitComma_ne_nil (l : List Char) : splitComma l ≠ [] := by
  cases l with
  | nil => simp [splitComma]
  | cons c rest =>
    simp only [splitComma]
    split_ifs
    · simp
    · split <;> simp

theorem joinComma_cons (x : List Char) {xs : List (List Char)}
    (h : xs ≠ []) : joinComma (x :: xs) = x ++ ',' :: joinComma xs := by
  cases xs with
  | nil => exact absurd rfl h
  | cons y ys => rfl

theorem joinComma_splitComma (l : List Char) :
    joinComma (splitComma l) = l := by
  induction l with
  | nil => rfl
  | cons c rest ih =>
    simp only [splitComma]
    split_ifs with hc
    · rw [joinComma_cons [] (splitComma_ne_nil rest), ih, hc]
      rfl
    · cases hxs : splitComma rest with
      | nil => exact absurd hxs (splitComma_ne_nil rest)
      | cons g gs =>
        rw [hxs] at ih
        cases gs with
        | nil =>
          have hj1 : joinComma [c :: g] = c :: g := rfl
          have hj2 : joinComma [g] = g := rfl
          rw [hj2] at ih
          rw [hj1, ih]
        | cons g2 gs2 =>
          rw [joinComma_cons (c :: g) (by simp)]
          rw [joinComma_cons g (by simp)] at ih
          simp only [List.cons_append, ih]

theorem splitComma_no_comma {x : List Char} (hx : ',' ∉ x) :
    splitComma x = [x] := by
  induction x with
  | nil => rfl
  | cons c x' ih =>
    have hc : ¬ c = ',' := fun he => hx (by rw [he]; exact List.mem_cons_self _ _)
    have hx' : ',' ∉ x' := fun hm => hx (List.mem_cons_of_mem _ hm)
    simp only [splitComma, if_neg hc, ih hx']

theorem splitComma_append {x : List Char} (t : List Char) (hx : ',' ∉ x) :
    splitComma (x ++ ',' :: t) = x :: splitComma t := by
  induction x with
  | nil => simp [splitComma]
  | cons c x' ih =>
    have hc : ¬ c = ',' := fun he => hx (by rw [he]; exact List.mem_cons_self _ _)
    have hx' : ',' ∉ x' := fun hm => hx (List.mem_cons_of_mem _ hm)
    simp only [List.cons_append, splitComma, if_neg hc, List.append_eq, ih hx']

theorem splitComma_joinComma {parts : List (List Char)} (hne : parts ≠ [])
    (hp : ∀ p ∈ parts, ',' ∉ p) :
    splitComma (joinComma parts) = parts := by
  induction parts with
  | nil => exact absurd rfl hne
  | cons x xs ih =>
    cases xs with
    | nil =>
      simp only [joinComma]
      exact splitComma_no_comma (hp x (List.mem_cons_self _ _))
    | cons x2 xs2 =>
      rw [joinComma_cons x (by simp),
        splitComma_append _ (hp x (List.mem_cons_self _ _)),
        ih (by simp) (fun p hm => hp p (List.mem_cons_of_mem _ hm))]

theorem string_mk_data (s : String) : String.mk s.data = s := rfl

theorem string_mk_eq_empty_iff (l : List Char) :
    (String.mk l = "") ↔ l = [] := by
  constructor
  · intro h
    exact congrArg String.data h
  · intro h
    rw [h]

theorem splitTags_joinTags {tags : List String} (h1 : tags ≠ [""])
    (h2 : ∀ s ∈ tags, ',' ∉ s.data) :
    splitTags (joinTags tags) = tags := by
  cases tags with
  | nil => rfl
  | cons t ts =>
    simp only [joinTags, splitTags]
    have hne : ¬ String.mk (joinComma ((t :: ts).map String.data)) = "" := by
      rw [string_mk_eq_empty_iff]
      cases ts with
      | nil =>
        simp only [List.map, joinComma]
        intro hd
        have ht : t = "" := congrArg String.mk hd
        exact h1 (by rw [ht])
      | cons t2 ts2 =>
        rw [List.map_cons, joinComma_cons _ (by simp)]
        simp
    rw [if_neg hne]
    have hparts : ∀ p ∈ (t :: ts).map String.data, ',' ∉ p := by
      intro p hm
      obtain ⟨s, hs, rfl⟩ := List.mem_map.mp hm
      exact h2 s hs
    rw [splitComma_joinComma (by simp) hparts, List.map_map]
    have hid : (String.mk ∘ String.data) = id := by
      funext s
      exact string_mk_data s
    rw [hid, List.map_id]

theorem tagText_splitTags {s : String} (hs : s ≠ "") :
    tagText (splitTags (some s)) = s := by
  simp only [splitTags, if_neg hs, tagText, List.map_map]
  have hid : (String.data ∘ String.mk) = id := by
    funext l
    rfl
  rw [hid, List.map_id, joinComma_splitComma]

theorem tagText_nil : tagText [] = "" := rfl

end TodoMaster

namespace TodoMaster

/-! ### Fetch plumbing: allSome, sorting, row-to-task transport -/

theorem allSome_eq_some {α : Type} :
    ∀ {xs : List (Option α)} {l : List α},
      Storage.allSome xs = some l → xs = l.map some := by
  intro xs
  induction xs with
  | nil =>
    intro l h
    simp only [Storage.allSome, Option.some_inj] at h
    rw [← h]
    rfl
  | cons x xs ih =>
    intro l h
    cases x with
    | none => exact Option.noConfusion h
    | some a =>
      simp only [Storage.allSome] at h
      cases hv : Storage.allSome xs with
      | none => rw [hv] at h; exact Option.noConfusion h
      | some l' =>
        rw [hv] at h
        obtain rfl := Option.some.inj h
        rw [List.map_cons, ← ih hv]

theorem mem_allSome {α : Type} {xs : List (Option α)} {l : List α}
    (h : Storage.allSome xs = some l) (a : α) : a ∈ l ↔ some a ∈ xs := by
  rw [allSome_eq_some h]
  simp

theorem optLeB_total (x y : Option String) :
    optLeB x y = true ∨ optLeB y x = true := by
  cases x with
  | none => exact Or.inl rfl
  | some a =>
    cases y with
    | none => exact Or.inr rfl
    | some b =>
      simp only [optLeB, strLeB, Bool.not_eq_true']
      cases h : listLtB b.data a.data with
      | false => exact Or.inl rfl
      | true => exact Or.inr (listLtB_asymm h)

theorem optLeB_trans {x y z : Option String} (h1 : optLeB x y = true)
    (h2 : optLeB y z = true) : optLeB x z = true := by
  cases x with
  | none => rfl
  | some a =>
    cases y with
    | none => exact absurd h1 (by simp [optLeB])
    | some b =>
      cases z with
      | none => exact absurd h2 (by simp [optLeB])
      | some c =>
        simp only [optLeB, strLeB, Bool.not_eq_true'] at h1 h2 ⊢
        cases hca : listLtB c.data a.data with
        | false => rfl
        | true =>
          exfalso
          cases hab : listLtB a.data b.data with
          | false =>
            have heq := listLtB_conn hab h1
            rw [heq] at hca
            rw [hca] at h2
            exact Bool.noConfusion h2
          | true =>
            have hcb := listLtB_trans hca hab
            rw [hcb] at h2
            exact Bool.noConfusion h2

end TodoMaster

namespace TodoMaster

instance (key : Row → Option String) : IsTotal Row (Storage.relDesc key) :=
  ⟨fun a b => by
    unfold Storage.relDesc
    rcases optLeB_total (key b) (key a) with h | h
    · exact Or.inl h
    · exact Or.inr h⟩

instance (key : Row → Option String) : IsTrans Row (Storage.relDesc key) :=
  ⟨fun a b c hab hbc => optLeB_trans hbc hab⟩

instance (key : Row → Option String) : IsTotal Row (Storage.relAsc key) :=
  ⟨fun a b => by
    unfold Storage.relAsc
    rcases optLeB_total (key a) (key b) with h | h
    · exact Or.inl h
    · exact Or.inr h⟩

instance (key : Row → Option String) : IsTrans Row (Storage.relAsc key) :=
  ⟨fun a b c hab hbc => optLeB_trans hab hbc⟩

theorem mem_orderDescBy (key : Row → Option String) (l : List Row) (r : Row) :
    r ∈ Storage.orderDescBy key l ↔ r ∈ l :=
  List.mem_insertionSort _

theorem mem_orderAscBy (key : Row → Option String) (l : List Row) (r : Row) :
    r ∈ Storage.orderAscBy key l ↔ r ∈ l :=
  List.mem_insertionSort _

theorem sorted_orderDescBy (key : Row → Option String) (l : List Row) :
    List.Sorted (Storage.relDesc key) (Storage.orderDescBy key l) :=
  List.sorted_insertionSort _ _

theorem sorted_orderAscBy (key : Row → Option String) (l : List Row) :
    List.Sorted (Storage.relAsc key) (Storage.orderAscBy key l) :=
  List.sorted_insertionSort _ _

theorem mem_rowsToTasks {l : List Row} {ts : List Task}
    (h : Storage.rowsToTasks l = some ts) (t : Task) :
    t ∈ ts ↔ ∃ r ∈ l, Storage._task_from_row r = some t := by
  unfold Storage.rowsToTasks at h
  rw [mem_allSome h]
  simp

theorem pairwise_of_map_some {R : Row → Row → Prop} {S : Task → Task → Prop}
    {rows : List Row} {ts : List Task}
    (hmap : rows.map Storage._task_from_row = ts.map some)
    (hR : rows.Pairwise R)
    (h : ∀ a b ta tb, Storage._task_from_row a = some ta →
      Storage._task_from_row b = some tb → R a b → S ta tb) :
    ts.Pairwise S := by
  induction rows generalizing ts with
  | nil =>
    cases ts with
    | nil => exact List.Pairwise.nil
    | cons t ts' => simp at hmap
  | cons r rows ih =>
    cases ts with
    | nil => simp at hmap
    | cons t ts' =>
      simp only [List.map_cons, List.cons.injEq] at hmap
      obtain ⟨hrt, hmap'⟩ := hmap
      rw [List.pairwise_cons] at hR
      rw [List.pairwise_cons]
      refine ⟨?_, ih hmap' hR.2⟩
      intro tb htb
      have hmem : some tb ∈ rows.map Storage._task_from_row := by
        rw [hmap']
        exact List.mem_map_of_mem some htb
      obtain ⟨b, hb, hfb⟩ := List.mem_map.mp hmem
      exact h r b t tb hrt hfb (hR.1 b hb)

theorem _task_from_row_some {r : Row} {t : Task}
    (h : Storage._task_from_row r = some t) :
    ∃ p dd ca ua cca,
      Priority.ofValue? r.priority = some p ∧
      Storage.optParse r.due_date = some dd ∧
      Storage.tsParse r.created_at = some ca ∧
      Storage.tsParse r.updated_at = some ua ∧
      Storage.optParse r.completed_at = some cca ∧
      t = { description := r.description
            priority := p
            due_date := dd
            completed := r.completed
            tags := splitTags r.tags
            id := some r.id
            created_at := some ca
            updated_at := some ua
            completed_at := cca } := by
  unfold Storage._task_from_row at h
  simp only [Option.bind_eq_some, Option.some_inj] at h
  obtain ⟨p, hp, dd, hdd, ca, hca, ua, hua, cca, hcca, ht⟩ := h
  exact ⟨p, dd, ca, ua, cca, hp, hdd, hca, hua, hcca, ht.symm⟩

theorem optParse_some_some {x : Option String} {d : DateTime}
    (h : Storage.optParse x = some (some d)) :
    ∃ s, x = some s ∧ s ≠ "" ∧ fromIso s = some d := by
  cases x with
  | none => exact Option.noConfusion (Option.some.inj h)
  | some s =>
    simp only [Storage.optParse] at h
    split_ifs at h with hs
    · exact Option.noConfusion (Option.some.inj h)
    · obtain ⟨d', hd', he⟩ := Option.map_eq_some'.mp h
      exact ⟨s, rfl, hs, by rw [hd', Option.some.inj he]⟩

end TodoMaster

namespace TodoMaster

theorem forall2_map_self {α β : Type} {R : α → β → Prop} {f : α → β}
    {l : List α} (h : ∀ a ∈ l, R a (f a)) : List.Forall₂ R l (l.map f) := by
  induction l with
  | nil => exact List.Forall₂.nil
  | cons a l' ih =>
    exact List.Forall₂.cons (h a (List.mem_cons_self _ _))
      (ih fun a ha => h a (List.mem_cons_of_mem _ ha))

/-- Claim C8: add_tag appends the tag only when it is not already present
under exact string comparison, refreshes updated_at only when a change
occurred, and a second add_tag of the same tag is the identity, so two
calls give the same tag set as one. -/
theorem claim8_add_tag (t : Task) (tag : String) (n1 n2 : DateTime) :
    (tag ∈ t.tags → t.add_tag tag n1 = t) ∧
    (tag ∉ t.tags →
      (t.add_tag tag n1).tags = t.tags ++ [tag] ∧
      (t.add_tag tag n1).updated_at = some n1 ∧
      (t.add_tag tag n1).description = t.description ∧
      (t.add_tag tag n1).completed = t.completed) ∧
    (t.add_tag tag n1).add_tag tag n2 = t.add_tag tag n1 := by
  unfold Task.add_tag
  by_cases hm : tag ∈ t.tags
  · simp [hm]
  · simp [hm]

/-- Witness for C8 at a concrete task: adding "y" to tag list ["x"] twice
yields the same task as adding it once, and one add appends it. -/
theorem claim8_add_tag_witness :
    ((Task.mk "a" Priority.medium none false ["x"] none none none
        none).add_tag "y" ⟨2026, 1, 1, 0, 0, 0, 0⟩).tags = ["x"] ++ ["y"] :=
  (((claim8_add_tag (Task.mk "a" Priority.medium none false ["x"] none none
    none none) "y" ⟨2026, 1, 1, 0, 0, 0, 0⟩ ⟨2026, 1, 2, 0, 0, 0, 0⟩).2.1)
      (by decide)).1

/-- Claim C6: updating a task whose id is absent from the store (or never
assigned) changes no row and returns the task unchanged. -/
theorem claim6_update_missing_noop (db : DB) (t : Task)
    (h : t.id = none ∨ ∀ r ∈ db.rows, some r.id ≠ t.id) :
    (Storage.update_task db t).1 = t ∧
    (Storage.update_task db t).2.rows = db.rows ∧
    (Storage.update_task db t).2.nextId = db.nextId := by
  refine ⟨rfl, ?_, rfl⟩
  unfold Storage.update_task
  simp only
  have hc : ∀ r ∈ db.rows,
      (if (match t.id with | none => false | some i => r.id = i) then
        { r with
           description := t.description
           priority := t.priority.value
           due_date := t.due_date.map isoStr
           completed := t.completed
           tags := joinTags t.tags
           updated_at := t.updated_at.map isoStr
           completed_at := t.completed_at.map isoStr }
      else r) = r := by
    intro r hr
    rcases h with hnone | hall
    · rw [hnone]
      rfl
    · cases hid : t.id with
      | none => rfl
      | some i =>
        have := hall r hr
        rw [hid] at this
        have hne : ¬ r.id = i := fun he => this (by rw [he])
        simp [hne]
  calc db.rows.map _ = db.rows.map id := List.map_congr_left hc
    _ = db.rows := List.map_id _

/-- Witness for C6: updating a task with id 2 against a store holding only
id 1 leaves the single row unchanged. -/
theorem claim6_update_missing_noop_witness :
    (Storage.update_task
      (DB.mk [Row.mk 1 "a" "medium" none false none
        (some "2026-01-01T00:00:00") (some "2026-01-01T00:00:00") none] 2)
      (Task.mk "b" Priority.high none false [] (some 2)
        (some ⟨2026, 1, 2, 0, 0, 0, 0⟩) (some ⟨2026, 1, 2, 0, 0, 0, 0⟩)
        none)).2.rows =
      [Row.mk 1 "a" "medium" none false none
        (some "2026-01-01T00:00:00") (some "2026-01-01T00:00:00") none] :=
  (claim6_update_missing_noop _ _ (by decide)).2.1

/-- Claim C7: delete returns true exactly when a row with the id exists,
removes exactly the rows carrying that id, never raises, and a second
delete of the same id returns false. -/
theorem claim7_delete (db : DB) (i : Nat) :
    ((Storage.delete_task db i).2 = true ↔ ∃ r ∈ db.rows, r.id = i) ∧
    (Storage.delete_task db i).1.rows = db.rows.filter (fun r => r.id ≠ i) ∧
    (Storage.delete_task (Storage.delete_task db i).1 i).2 = false := by
  unfold Storage.delete_task
  refine ⟨?_, rfl, ?_⟩
  · simp [List.any_eq_true]
  · simp only [List.any_eq_true, decide_eq_true_eq]
    rw [Bool.eq_false_iff]
    intro hc
    rw [List.any_eq_true] at hc
    obtain ⟨r, hr, he⟩ := hc
    rw [List.mem_filter] at hr
    have hne := hr.2
    simp only [decide_eq_true_eq] at he
    simp [he] at hne

/-- Claim C9: updating a task whose id exists overwrites exactly the
mutable columns of the matching row, leaves that row's id and created_at
untouched, leaves every other row unchanged, and returns the task. -/
theorem claim9_update_frame (db : DB) (t : Task) (i : Nat)
    (hid : t.id = some i) (hex : ∃ r ∈ db.rows, r.id = i) :
    (Storage.update_task db t).1 = t ∧
    (Storage.update_task db t).2.nextId = db.nextId ∧
    List.Forall₂ (fun r r' =>
      (r.id ≠ i → r' = r) ∧
      (r.id = i →
        r'.id = r.id ∧ r'.created_at = r.created_at ∧
        r'.description = t.description ∧ r'.priority = t.priority.value ∧
        r'.due_date = t.due_date.map isoStr ∧ r'.completed = t.completed ∧
        r'.tags = joinTags t.tags ∧ r'.updated_at = t.updated_at.map isoStr ∧
        r'.completed_at = t.completed_at.map isoStr))
      db.rows (Storage.update_task db t).2.rows := by
  refine ⟨rfl, rfl, ?_⟩
  unfold Storage.update_task
  simp only
  apply forall2_map_self
  intro r hr
  rw [hid]
  constructor
  · intro hne
    simp [hne]
  · intro he
    simp [he]

/-- Witness for C9: updating the task with id 1 overwrites its description
and keeps the row's created_at. -/
theorem claim9_update_frame_witness :
    List.Forall₂ (fun r r' =>
      (r.id ≠ 1 → r' = r) ∧
      (r.id = 1 →
        r'.id = r.id ∧ r'.created_at = r.created_at ∧
        r'.description = "b" ∧ r'.priority = (Priority.high).value ∧
        r'.due_date = (none : Option DateTime).map isoStr ∧
        r'.completed = true ∧
        r'.tags = joinTags [] ∧
        r'.updated_at = (some (⟨2026, 1, 2, 0, 0, 0, 0⟩ : DateTime)).map isoStr ∧
        r'.completed_at = (some (⟨2026, 1, 2, 0, 0, 0, 0⟩ : DateTime)).map isoStr))
      [Row.mk 1 "a" "medium" none false none
        (some "2026-01-01T00:00:00") (some "2026-01-01T00:00:00") none]
      (Storage.update_task
        (DB.mk [Row.mk 1 "a" "medium" none false none
          (some "2026-01-01T00:00:00") (some "2026-01-01T00:00:00") none] 2)
        (Task.mk "b" Priority.high none true [] (some 1)
          (some ⟨2026, 1, 1, 0, 0, 0, 0⟩) (some ⟨2026, 1, 2, 0, 0, 0, 0⟩)
          (some ⟨2026, 1, 2, 0, 0, 0, 0⟩))).2.rows :=
  (claim9_update_frame
    (DB.mk [Row.mk 1 "a" "medium" none false none
      (some "2026-01-01T00:00:00") (some "2026-01-01T00:00:00") none] 2)
    (Task.mk "b" Priority.high none true [] (some 1)
      (some ⟨2026, 1, 1, 0, 0, 0, 0⟩) (some ⟨2026, 1, 2, 0, 0, 0, 0⟩)
      (some ⟨2026, 1, 2, 0, 0, 0, 0⟩)) 1 rfl
    ⟨_, List.mem_cons_self _ _, rfl⟩).2.2

end TodoMaster

namespace TodoMaster

theorem find?_append_first_none {α : Type} {p : α → Bool} {l1 l2 : List α}
    (h : ∀ a ∈ l1, p a = false) :
    (l1 ++ l2).find? p = l2.find? p := by
  induction l1 with
  | nil => rfl
  | cons a l1' ih =>
    rw [List.cons_append, List.find?_cons, h a (List.mem_cons_self _ _),
      ih fun a ha => h a (List.mem_cons_of_mem _ ha)]

theorem ofValue?_value (p : Priority) : Priority.ofValue? p.value = some p := by
  cases p <;> rfl

theorem from_to_row (t : Task) (i : Nat)
    (hca : ∃ c, t.created_at = some c ∧ c.Valid)
    (hua : ∃ u, t.updated_at = some u ∧ u.Valid)
    (hdd : t.due_date = none ∨ ∃ d, t.due_date = some d ∧ d.Valid)
    (hcc : t.completed_at = none ∨ ∃ d, t.completed_at = some d ∧ d.Valid)
    (htag1 : t.tags ≠ [""]) (htag2 : ∀ s ∈ t.tags, ',' ∉ s.data) :
    Storage._task_from_row (Storage._task_to_row t i) =
      some { t with id := some i } := by
  obtain ⟨c, hc, hcv⟩ := hca
  obtain ⟨u, hu, huv⟩ := hua
  have h2 : Storage.optParse (t.due_date.map isoStr) = some t.due_date := by
    rcases hdd with h | ⟨d, hd, hv⟩
    · rw [h]
      rfl
    · rw [hd, Option.map_some']
      simp only [Storage.optParse, if_neg (isoStr_ne_empty d)]
      rw [fromIso_isoStr hv]
      rfl
  have h5 : Storage.optParse (t.completed_at.map isoStr) = some t.completed_at := by
    rcases hcc with h | ⟨d, hd, hv⟩
    · rw [h]
      rfl
    · rw [hd, Option.map_some']
      simp only [Storage.optParse, if_neg (isoStr_ne_empty d)]
      rw [fromIso_isoStr hv]
      rfl
  have h3 : Storage.tsParse (t.created_at.map isoStr) = some c := by
    rw [hc, Option.map_some']
    simp only [Storage.tsParse]
    exact fromIso_isoStr hcv
  have h4 : Storage.tsParse (t.updated_at.map isoStr) = some u := by
    rw [hu, Option.map_some']
    simp only [Storage.tsParse]
    exact fromIso_isoStr huv
  unfold Storage._task_from_row Storage._task_to_row
  simp only [ofValue?_value, h2, h3, h4, h5, Option.some_bind]
  rw [show splitTags (joinTags t.tags) = t.tags from splitTags_joinTags htag1 htag2]
  rw [← hc, ← hu]

/-- Claim C2 fails as stated: a task whose single tag contains a comma is
returned from the create-then-get round trip with that tag split in two,
because tags are persisted as one comma-joined text. -/
theorem claim2_roundtrip_counterexample :
    Storage.get_task
        (Storage.create_task (DB.mk [] 1)
          (Task.mk "x" Priority.medium none false ["a,b"] none
            (some ⟨2026, 1, 1, 0, 0, 0, 0⟩) (some ⟨2026, 1, 1, 0, 0, 0, 0⟩)
            none)).2 1 ≠
      some { Task.mk "x" Priority.medium none false ["a,b"] none
          (some ⟨2026, 1, 1, 0, 0, 0, 0⟩) (some ⟨2026, 1, 1, 0, 0, 0, 0⟩)
          none with id := some 1 } ∧
    Storage.get_task
        (Storage.create_task (DB.mk [] 1)
          (Task.mk "x" Priority.medium none false ["a,b"] none
            (some ⟨2026, 1, 1, 0, 0, 0, 0⟩) (some ⟨2026, 1, 1, 0, 0, 0, 0⟩)
            none)).2 1 =
      some (Task.mk "x" Priority.medium none false ["a", "b"] (some 1)
        (some ⟨2026, 1, 1, 0, 0, 0, 0⟩) (some ⟨2026, 1, 1, 0, 0, 0, 0⟩)
        none) := by
  constructor
  · decide
  · decide

/-- Claim C2 (amended): for a constructed task (created_at and updated_at
stamped with in-range datetimes, any in-range optional due_date and
completed_at), provided no tag contains a comma and the tag list is not
the single empty string, create followed by get with the returned id
yields the task unchanged except that id is now set. -/
theorem claim2_roundtrip_amended (db : DB) (t : Task)
    (hfresh : ∀ r ∈ db.rows, r.id ≠ db.nextId)
    (hca : ∃ c, t.created_at = some c ∧ c.Valid)
    (hua : ∃ u, t.updated_at = some u ∧ u.Valid)
    (hdd : t.due_date = none ∨ ∃ d, t.due_date = some d ∧ d.Valid)
    (hcc : t.completed_at = none ∨ ∃ d, t.completed_at = some d ∧ d.Valid)
    (htag1 : t.tags ≠ [""]) (htag2 : ∀ s ∈ t.tags, ',' ∉ s.data) :
    (Storage.create_task db t).1 = { t with id := some db.nextId } ∧
    Storage.get_task (Storage.create_task db t).2 db.nextId =
      some { t with id := some db.nextId } := by
  refine ⟨rfl, ?_⟩
  unfold Storage.get_task Storage.create_task
  simp only
  rw [find?_append_first_none (fun r hr => by
    simpa using hfresh r hr)]
  rw [show ([Storage._task_to_row t db.nextId].find?
      (fun r => r.id = db.nextId)) = some (Storage._task_to_row t db.nextId) by
    rw [List.find?_cons]
    simp [Storage._task_to_row]]
  exact from_to_row t db.nextId hca hua hdd hcc htag1 htag2

/-- Witness for C2 (amended) at a concrete task with a due date and two
comma-free tags. -/
theorem claim2_roundtrip_witness :
    Storage.get_task
        (Storage.create_task (DB.mk [] 1)
          (Task.mk "buy milk" Priority.high (some ⟨2026, 2, 3, 12, 30, 0, 5⟩)
            false ["shop", "food"] none (some ⟨2026, 1, 1, 8, 0, 0, 0⟩)
            (some ⟨2026, 1, 1, 8, 0, 0, 123⟩) none)).2 1 =
      some { Task.mk "buy milk" Priority.high (some ⟨2026, 2, 3, 12, 30, 0, 5⟩)
          false ["shop", "food"] none (some ⟨2026, 1, 1, 8, 0, 0, 0⟩)
          (some ⟨2026, 1, 1, 8, 0, 0, 123⟩) none with id := some 1 } :=
  (claim2_roundtrip_amended (DB.mk [] 1)
    (Task.mk "buy milk" Priority.high (some ⟨2026, 2, 3, 12, 30, 0, 5⟩)
      false ["shop", "food"] none (some ⟨2026, 1, 1, 8, 0, 0, 0⟩)
      (some ⟨2026, 1, 1, 8, 0, 0, 123⟩) none)
    (by decide)
    ⟨⟨2026, 1, 1, 8, 0, 0, 0⟩, rfl, by decide⟩
    ⟨⟨2026, 1, 1, 8, 0, 0, 123⟩, rfl, by decide⟩
    (Or.inr ⟨⟨2026, 2, 3, 12, 30, 0, 5⟩, rfl, by decide⟩)
    (Or.inl rfl) (by decide) (by decide)).2

end TodoMaster

namespace TodoMaster

theorem from_row_completed {r : Row} {t : Task}
    (h : Storage._task_from_row r = some t) : t.completed = r.completed := by
  obtain ⟨p, dd, ca, ua, cca, _, _, _, _, _, ht⟩ := _task_from_row_some h
  rw [ht]

/-- Claim C3: for every store state, the tasks returned by
get_pending_tasks and get_completed_tasks are disjoint and together are
exactly the tasks returned by get_all_tasks (membership in the sense of
task sets: no overlap, no omission). -/
theorem claim3_partition (db : DB) (la lp lc : List Task)
    (ha : Storage.get_all_tasks db = some la)
    (hp : Storage.get_pending_tasks db = some lp)
    (hc : Storage.get_completed_tasks db = some lc) :
    (∀ t, t ∈ la ↔ (t ∈ lp ∨ t ∈ lc)) ∧ (∀ t, t ∈ lp → t ∉ lc) := by
  unfold Storage.get_all_tasks at ha
  unfold Storage.get_pending_tasks at hp
  unfold Storage.get_completed_tasks at hc
  have Ha : ∀ t, t ∈ la ↔ ∃ r ∈ db.rows, Storage._task_from_row r = some t := by
    intro t
    rw [mem_rowsToTasks ha t]
    constructor
    · rintro ⟨r, hr, hf⟩
      exact ⟨r, (mem_orderDescBy _ _ r).mp hr, hf⟩
    · rintro ⟨r, hr, hf⟩
      exact ⟨r, (mem_orderDescBy _ _ r).mpr hr, hf⟩
  have Hp : ∀ t, t ∈ lp ↔ ∃ r ∈ db.rows, r.completed = false ∧
      Storage._task_from_row r = some t := by
    intro t
    rw [mem_rowsToTasks hp t]
    constructor
    · rintro ⟨r, hr, hf⟩
      have hr' := (mem_orderDescBy _ _ r).mp hr
      rw [List.mem_filter] at hr'
      exact ⟨r, hr'.1, by simpa using hr'.2, hf⟩
    · rintro ⟨r, hr, hcomp, hf⟩
      refine ⟨r, (mem_orderDescBy _ _ r).mpr ?_, hf⟩
      rw [List.mem_filter]
      exact ⟨hr, by simp [hcomp]⟩
  have Hc : ∀ t, t ∈ lc ↔ ∃ r ∈ db.rows, r.completed = true ∧
      Storage._task_from_row r = some t := by
    intro t
    rw [mem_rowsToTasks hc t]
    constructor
    · rintro ⟨r, hr, hf⟩
      have hr' := (mem_orderDescBy _ _ r).mp hr
      rw [List.mem_filter] at hr'
      exact ⟨r, hr'.1, hr'.2, hf⟩
    · rintro ⟨r, hr, hcomp, hf⟩
      refine ⟨r, (mem_orderDescBy _ _ r).mpr ?_, hf⟩
      rw [List.mem_filter]
      exact ⟨hr, hcomp⟩
  constructor
  · intro t
    rw [Ha, Hp, Hc]
    constructor
    · rintro ⟨r, hr, hf⟩
      cases hcomp : r.completed with
      | false => exact Or.inl ⟨r, hr, hcomp, hf⟩
      | true => exact Or.inr ⟨r, hr, hcomp, hf⟩
    · rintro (⟨r, hr, _, hf⟩ | ⟨r, hr, _, hf⟩) <;> exact ⟨r, hr, hf⟩
  · intro t hmp hmc
    rw [Hp] at hmp
    rw [Hc] at hmc
    obtain ⟨r, _, hcomp, hf⟩ := hmp
    obtain ⟨r', _, hcomp', hf'⟩ := hmc
    have h1 := from_row_completed hf
    have h2 := from_row_completed hf'
    rw [hcomp] at h1
    rw [hcomp'] at h2
    rw [h1] at h2
    exact Bool.noConfusion h2

/-- Witness for C3 on a two-row store holding one pending and one
completed task. -/
theorem claim3_partition_witness :
    (∀ t, t ∈ [Task.mk "a" Priority.medium none false [] (some 1)
          (some ⟨2026, 1, 2, 0, 0, 0, 0⟩) (some ⟨2026, 1, 2, 0, 0, 0, 0⟩) none,
        Task.mk "b" Priority.low none true [] (some 2)
          (some ⟨2026, 1, 1, 0, 0, 0, 0⟩) (some ⟨2026, 1, 1, 0, 0, 0, 0⟩)
          (some ⟨2026, 1, 3, 0, 0, 0, 0⟩)] ↔
      (t ∈ [Task.mk "a" Priority.medium none false [] (some 1)
          (some ⟨2026, 1, 2, 0, 0, 0, 0⟩) (some ⟨2026, 1, 2, 0, 0, 0, 0⟩) none] ∨
       t ∈ [Task.mk "b" Priority.low none true [] (some 2)
          (some ⟨2026, 1, 1, 0, 0, 0, 0⟩) (some ⟨2026, 1, 1, 0, 0, 0, 0⟩)
          (some ⟨2026, 1, 3, 0, 0, 0, 0⟩)])) ∧
    (∀ t, t ∈ [Task.mk "a" Priority.medium none false [] (some 1)
          (some ⟨2026, 1, 2, 0, 0, 0, 0⟩) (some ⟨2026, 1, 2, 0, 0, 0, 0⟩) none] →
      t ∉ [Task.mk "b" Priority.low none true [] (some 2)
          (some ⟨2026, 1, 1, 0, 0, 0, 0⟩) (some ⟨2026, 1, 1, 0, 0, 0, 0⟩)
          (some ⟨2026, 1, 3, 0, 0, 0, 0⟩)]) :=
  claim3_partition
    (DB.mk [Row.mk 1 "a" "medium" none false none
        (some "2026-01-02T00:00:00") (some "2026-01-02T00:00:00") none,
      Row.mk 2 "b" "low" none true none
        (some "2026-01-01T00:00:00") (some "2026-01-01T00:00:00")
        (some "2026-01-03T00:00:00")] 3)
    _ _ _ (by decide) (by decide) (by decide)

end TodoMaster

namespace TodoMaster

theorem created_of_from_row {r : Row} {t : Task} {ca : DateTime}
    (hf : Storage._task_from_row r = some t) (hca : t.created_at = some ca) :
    ∃ s, r.created_at = some s ∧ fromIso s = some ca := by
  obtain ⟨p, dd, ca', ua, cca, hp, hdd, hca', hua, hcca, ht⟩ :=
    _task_from_row_some hf
  rw [ht] at hca
  obtain rfl := Option.some.inj hca
  cases hcr : r.created_at with
  | none => rw [hcr] at hca'; exact Option.noConfusion hca'
  | some s =>
    rw [hcr] at hca'
    exact ⟨s, rfl, hca'⟩

theorem due_of_from_row {r : Row} {t : Task} {d : DateTime}
    (hf : Storage._task_from_row r = some t) (hd : t.due_date = some d) :
    ∃ s, r.due_date = some s ∧ s ≠ "" ∧ fromIso s = some d := by
  obtain ⟨p, dd, ca', ua, cca, hp, hdd, hca', hua, hcca, ht⟩ :=
    _task_from_row_some hf
  rw [ht] at hd
  have hdd2 : dd = some d := hd
  rw [hdd2] at hdd
  exact optParse_some_some hdd

theorem sorted_created_desc {l : List Row} {ts : List Task}
    (h : Storage.rowsToTasks (Storage.orderDescBy Row.created_at l) = some ts) :
    List.Pairwise (fun a b => ∀ ca cb, a.created_at = some ca →
      b.created_at = some cb → keyNat cb ≤ keyNat ca) ts := by
  unfold Storage.rowsToTasks at h
  apply pairwise_of_map_some (allSome_eq_some h)
    (sorted_orderDescBy Row.created_at l)
  intro a b ta tb hfa hfb hab ca cb hca hcb
  obtain ⟨sa, hsa, hpa⟩ := created_of_from_row hfa hca
  obtain ⟨sb, hsb, hpb⟩ := created_of_from_row hfb hcb
  obtain ⟨hva, ta', hta', hda⟩ := fromIso_some hpa
  obtain ⟨hvb, tb', htb', hdb⟩ := fromIso_some hpb
  unfold Storage.relDesc at hab
  rw [hsa, hsb] at hab
  simp only [optLeB, strLeB, Bool.not_eq_true'] at hab
  rw [hda, hdb] at hab
  exact keyNat_le_of_not_ltB hvb hva htb' hta' hab

theorem sorted_due_asc {l : List Row} {ts : List Task}
    (h : Storage.rowsToTasks (Storage.orderAscBy Row.due_date l) = some ts) :
    List.Pairwise (fun a b => ∀ da e, a.due_date = some da →
      b.due_date = some e → keyNat da ≤ keyNat e) ts := by
  unfold Storage.rowsToTasks at h
  apply pairwise_of_map_some (allSome_eq_some h)
    (sorted_orderAscBy Row.due_date l)
  intro a b ta tb hfa hfb hab da e hda hde
  obtain ⟨sa, hsa, _, hpa⟩ := due_of_from_row hfa hda
  obtain ⟨sb, hsb, _, hpb⟩ := due_of_from_row hfb hde
  obtain ⟨hva, ta', hta', hea⟩ := fromIso_some hpa
  obtain ⟨hvb, tb', htb', heb⟩ := fromIso_some hpb
  unfold Storage.relAsc at hab
  rw [hsa, hsb] at hab
  simp only [optLeB, strLeB, Bool.not_eq_true'] at hab
  rw [hea, heb] at hab
  exact keyNat_le_of_not_ltB hva hvb hta' htb' hab

/-- Claim C10: searching with the empty query returns exactly the whole
store — it is the same call as get_all_tasks — every stored task is a
member (tasks with no tags included), ordered newest-created first. -/
theorem claim10_search_empty (db : DB) :
    Storage.search_tasks db "" = Storage.get_all_tasks db ∧
    (∀ ts, Storage.search_tasks db "" = some ts →
      (∀ t, t ∈ ts ↔ ∃ r ∈ db.rows, Storage._task_from_row r = some t) ∧
      List.Pairwise (fun a b => ∀ ca cb, a.created_at = some ca →
        b.created_at = some cb → keyNat cb ≤ keyNat ca) ts) := by
  have hall : ∀ r : Row, Storage.searchRow "" r = true := by
    intro r
    unfold Storage.searchRow patOf
    rw [likeM_pat (by decide) (by decide),
      show List.map asciiLower ("" : String).data = [] from rfl,
      hasSub_nil_left]
    rfl
  constructor
  · unfold Storage.search_tasks Storage.get_all_tasks
    rw [List.filter_eq_self.mpr (fun r _ => hall r)]
  · intro ts hts
    unfold Storage.search_tasks at hts
    constructor
    · intro t
      rw [mem_rowsToTasks hts t]
      constructor
      · rintro ⟨r, hr, hf⟩
        have hr' := (mem_orderDescBy _ _ r).mp hr
        rw [List.mem_filter] at hr'
        exact ⟨r, hr'.1, hf⟩
      · rintro ⟨r, hr, hf⟩
        refine ⟨r, (mem_orderDescBy _ _ r).mpr ?_, hf⟩
        rw [List.mem_filter]
        exact ⟨hr, hall r⟩
    · exact sorted_created_desc hts

/-- Witness for C10: on a one-row store with no tags, the empty-query
search call coincides with get_all_tasks. -/
theorem claim10_search_empty_witness :
    Storage.search_tasks
        (DB.mk [Row.mk 1 "solo" "low" none false none
          (some "2026-03-01T10:00:00") (some "2026-03-01T10:00:00") none] 2)
        "" =
      Storage.get_all_tasks
        (DB.mk [Row.mk 1 "solo" "low" none false none
          (some "2026-03-01T10:00:00") (some "2026-03-01T10:00:00") none] 2) :=
  (claim10_search_empty
    (DB.mk [Row.mk 1 "solo" "low" none false none
      (some "2026-03-01T10:00:00") (some "2026-03-01T10:00:00") none] 2)).1

end TodoMaster

namespace TodoMaster

theorem searchRow_iff_task {q : String} {r : Row} {t : Task} (hq : NoWild q)
    (hf : Storage._task_from_row r = some t) :
    (Storage.searchRow q r = true ↔
      (containsCI q t.description = true ∨
        containsCI q (tagText t.tags) = true)) := by
  obtain ⟨p, dd, ca, ua, cca, hp, hdd, hca, hua, hcca, ht⟩ :=
    _task_from_row_some hf
  have hdesc : t.description = r.description := by rw [ht]
  have htags : t.tags = splitTags r.tags := by rw [ht]
  obtain ⟨hq1, hq2⟩ := hq
  unfold Storage.searchRow patOf containsCI
  rw [likeM_pat hq1 hq2, hdesc, htags]
  cases hrt : r.tags with
  | none =>
    rw [show splitTags (none : Option String) = [] from rfl, tagText_nil]
    simp only [Bool.or_false, Bool.or_eq_true]
    constructor
    · intro h
      exact Or.inl h
    · rintro (h | h)
      · exact h
      · have h' : hasSub (q.data.map asciiLower) [] = true := h
        have hnil : q.data.map asciiLower = [] := by
          cases hqd : q.data.map asciiLower with
          | nil => rfl
          | cons c cs =>
            rw [hqd] at h'
            simp [hasSub, hasLead] at h'
        rw [hnil]
        exact hasSub_nil_left _
  | some s =>
    by_cases hs : s = ""
    · subst hs
      rw [show splitTags (some "") = [] from rfl, tagText_nil]
      simp only [likeM_pat hq1 hq2, Bool.or_eq_true]
    · rw [tagText_splitTags hs]
      simp only [likeM_pat hq1 hq2, Bool.or_eq_true]

/-- Claim C4 fails as stated: the query text is spliced into a LIKE
pattern, so a query containing the wildcard percent matches every row
even though it is not a substring of the description or tag text. -/
theorem claim4_search_counterexample :
    Storage.search_tasks
        (DB.mk [Row.mk 1 "abc" "medium" none false none
          (some "2026-01-01T00:00:00") (some "2026-01-01T00:00:00") none] 2)
        "%" =
      some [Task.mk "abc" Priority.medium none false [] (some 1)
        (some ⟨2026, 1, 1, 0, 0, 0, 0⟩) (some ⟨2026, 1, 1, 0, 0, 0, 0⟩)
        none] ∧
    containsCI "%"
      (Task.mk "abc" Priority.medium none false [] (some 1)
        (some ⟨2026, 1, 1, 0, 0, 0, 0⟩) (some ⟨2026, 1, 1, 0, 0, 0, 0⟩)
        none).description = false ∧
    containsCI "%"
      (tagText (Task.mk "abc" Priority.medium none false [] (some 1)
        (some ⟨2026, 1, 1, 0, 0, 0, 0⟩) (some ⟨2026, 1, 1, 0, 0, 0, 0⟩)
        none).tags) = false := by
  refine ⟨?_, ?_, ?_⟩
  · decide
  · decide
  · decide

/-- Claim C4 (amended): for every query containing neither LIKE wildcard
(percent or underscore), search returns exactly the stored tasks whose
description or serialised comma-joined tag text contains the query as an
ASCII-case-insensitive substring, ordered newest-created first. -/
theorem claim4_search_amended (db : DB) (q : String) (ts : List Task)
    (hq : NoWild q) (h : Storage.search_tasks db q = some ts) :
    (∀ t, t ∈ ts ↔ ((∃ r ∈ db.rows, Storage._task_from_row r = some t) ∧
      (containsCI q t.description = true ∨
        containsCI q (tagText t.tags) = true))) ∧
    List.Pairwise (fun a b => ∀ ca cb, a.created_at = some ca →
      b.created_at = some cb → keyNat cb ≤ keyNat ca) ts := by
  unfold Storage.search_tasks at h
  constructor
  · intro t
    rw [mem_rowsToTasks h t]
    constructor
    · rintro ⟨r, hr, hf⟩
      have hr' := (mem_orderDescBy _ _ r).mp hr
      rw [List.mem_filter] at hr'
      exact ⟨⟨r, hr'.1, hf⟩, (searchRow_iff_task hq hf).mp hr'.2⟩
    · rintro ⟨⟨r, hr, hf⟩, hmatch⟩
      refine ⟨r, (mem_orderDescBy _ _ r).mpr ?_, hf⟩
      rw [List.mem_filter]
      exact ⟨hr, (searchRow_iff_task hq hf).mpr hmatch⟩
  · exact sorted_created_desc h

/-- Witness for C4 (amended) at the wildcard-free query "b" on a one-task
store: the characterisation and the ordering hold there. -/
theorem claim4_search_amended_witness :
    (∀ t, t ∈ [Task.mk "abc" Priority.medium none false [] (some 1)
        (some ⟨2026, 1, 1, 0, 0, 0, 0⟩) (some ⟨2026, 1, 1, 0, 0, 0, 0⟩)
        none] ↔
      ((∃ r ∈ (DB.mk [Row.mk 1 "abc" "medium" none false none
          (some "2026-01-01T00:00:00") (some "2026-01-01T00:00:00")
          none] 2).rows,
        Storage._task_from_row r =
          some t) ∧
        (containsCI "b" t.description = true ∨
          containsCI "b" (tagText t.tags) = true))) ∧
    List.Pairwise (fun a b => ∀ ca cb, a.created_at = some ca →
      b.created_at = some cb → keyNat cb ≤ keyNat ca)
      [Task.mk "abc" Priority.medium none false [] (some 1)
        (some ⟨2026, 1, 1, 0, 0, 0, 0⟩) (some ⟨2026, 1, 1, 0, 0, 0, 0⟩)
        none] :=
  claim4_search_amended
    (DB.mk [Row.mk 1 "abc" "medium" none false none
      (some "2026-01-01T00:00:00") (some "2026-01-01T00:00:00") none] 2)
    "b" _ (by decide) (by decide)

end TodoMaster

namespace TodoMaster

theorem listLtB_nil_lt {l : List Char} (h : l ≠ []) : listLtB [] l = true := by
  cases l with
  | nil => exact absurd rfl h
  | cons c cs => rfl

theorem dateData_ne_nil (x : Date) : dateData x ≠ [] := by
  intro hc
  have hlen := congrArg List.length hc
  simp [dateData, length_padNum] at hlen

theorem isoCore_vs_dateStr {x : Date} {d : DateTime} (hx : x.ValidD)
    (hd : d.Valid) (tail : List Char) :
    (listLtB (isoCore d ++ tail) (dateData x) = true ↔
      dateKey d.dateOf < dateKey x) := by
  rw [isoCore_append]
  rw [show dateData x = dateData x ++ [] from (List.append_nil _).symm]
  rw [listLtB_append _ _ (by unfold dateData; simp [length_padNum])]
  rw [dateData_lt_iff hd.1 hx]
  simp [listLtB]

theorem dateStr_vs_isoCore {x : Date} {d : DateTime} (hx : x.ValidD)
    (hd : d.Valid) (tail : List Char) :
    (listLtB (dateData x) (isoCore d ++ tail) = true ↔
      dateKey x ≤ dateKey d.dateOf) := by
  rw [isoCore_append]
  rw [show dateData x = dateData x ++ [] from (List.append_nil _).symm]
  rw [listLtB_append _ _ (by unfold dateData; simp [length_padNum])]
  rw [dateData_lt_iff hx hd.1, dateData_eq_iff hx hd.1]
  simp [listLtB]
  omega

theorem keyNat_startOfDay (x : Date) :
    keyNat (startOfDay x) = dateKey x * 1000000000000 := by
  unfold keyNat startOfDay timeKey dateKey DateTime.dateOf
  dsimp only
  ring

theorem startOfDay_cmp {x : Date} {d : DateTime} (hd : d.Valid) :
    (keyNat (startOfDay x) ≤ keyNat d ↔ dateKey x ≤ dateKey d.dateOf) ∧
    (keyNat d < keyNat (startOfDay x) ↔ dateKey d.dateOf < dateKey x) := by
  have h1 := timeKey_le hd
  have h2 := hd.2.2.2.2
  rw [keyNat_startOfDay x]
  unfold keyNat
  constructor <;> omega

/-- Claim C5: the record predicate is_due_today holds iff the due date is
set with today's calendar date, independent of the completed flag; the
store query get_tasks_due_today returns only pending tasks whose due date
lies in the half-open day interval [start of today, start of tomorrow),
ordered by due date ascending; hence a completed task due today satisfies
the predicate yet is absent from the query result. -/
theorem claim5_due_today (now : DateTime) (db : DB) (ts : List Task)
    (hnow : now.Valid) (hnext : now.dateOf.nextDay.ValidD)
    (h : Storage.get_tasks_due_today db now = some ts) :
    (∀ (t : Task) (b : Bool),
      Task.is_due_today { t with completed := b } now =
        Task.is_due_today t now) ∧
    (∀ t : Task, Task.is_due_today t now = true ↔
      ∃ d, t.due_date = some d ∧ d.dateOf = now.dateOf) ∧
    (∀ t ∈ ts, t.completed = false ∧
      ∃ d, t.due_date = some d ∧
        keyNat (startOfDay now.dateOf) ≤ keyNat d ∧
        keyNat d < keyNat (startOfDay now.dateOf.nextDay)) ∧
    List.Pairwise (fun a b => ∀ da e, a.due_date = some da →
      b.due_date = some e → keyNat da ≤ keyNat e) ts ∧
    (Task.is_due_today
      (Task.mk "c" Priority.medium (some now) true [] (some 1) (some now)
        (some now) (some now)) now = true ∧
     Storage.get_tasks_due_today
       (DB.mk [Storage._task_to_row
         (Task.mk "c" Priority.medium (some now) true [] (some 1) (some now)
           (some now) (some now)) 1] 2) now = some []) := by
  refine ⟨fun t b => rfl, ?_, ?_, ?_, ?_, ?_⟩
  · intro t
    unfold Task.is_due_today
    cases hdue : t.due_date with
    | none => simp
    | some d => simp [decide_eq_true_eq]
  · intro t ht
    unfold Storage.get_tasks_due_today at h
    rw [mem_rowsToTasks h t] at ht
    obtain ⟨r, hr, hf⟩ := ht
    have hr' := (mem_orderAscBy _ _ r).mp hr
    rw [List.mem_filter] at hr'
    have hcond := hr'.2
    unfold Storage.dueTodayRow at hcond
    simp only [Bool.and_eq_true, Bool.not_eq_true'] at hcond
    obtain ⟨hcomp, hmatch⟩ := hcond
    refine ⟨by rw [from_row_completed hf, hcomp], ?_⟩
    cases hdue : r.due_date with
    | none => rw [hdue] at hmatch; exact Bool.noConfusion hmatch
    | some s =>
      rw [hdue] at hmatch
      simp only [Bool.and_eq_true] at hmatch
      obtain ⟨hle, hlt⟩ := hmatch
      have hs : s ≠ "" := by
        intro hc
        subst hc
        unfold strLeB dateIsoStr at hle
        rw [show ("" : String).data = [] from rfl] at hle
        rw [listLtB_nil_lt (dateData_ne_nil now.dateOf)] at hle
        exact Bool.noConfusion hle
      obtain ⟨p, dd, ca, ua, cca, hp, hdd, hca, hua, hcca, htrec⟩ :=
        _task_from_row_some hf
      rw [hdue] at hdd
      simp only [Storage.optParse, if_neg hs] at hdd
      obtain ⟨d, hpd, hsomed⟩ := Option.map_eq_some'.mp hdd
      have htdue : t.due_date = some d := by
        rw [htrec, ← hsomed]
      obtain ⟨hdv, tl, htl, hdata⟩ := fromIso_some hpd
      refine ⟨d, htdue, ?_, ?_⟩
      · rw [(startOfDay_cmp hdv).1]
        unfold strLeB dateIsoStr at hle
        simp only [Bool.not_eq_true'] at hle
        rw [hdata] at hle
        have hnot : ¬ dateKey d.dateOf < dateKey now.dateOf := by
          intro hcon
          rw [(isoCore_vs_dateStr hnow.1 hdv tl).mpr hcon] at hle
          exact Bool.noConfusion hle
        omega
      · rw [(startOfDay_cmp hdv).2]
        unfold strLtB dateIsoStr at hlt
        rw [hdata] at hlt
        exact (isoCore_vs_dateStr hnext hdv tl).mp hlt
  · exact sorted_due_asc h
  · unfold Task.is_due_today
    simp
  · rfl

end TodoMaster

namespace TodoMaster

/-- Witness for C5 on a concrete store: the one pending task due later
today is in the result, pending, and inside the day interval. -/
theorem claim5_due_today_witness :
    (Task.mk "m" Priority.medium (some ⟨2026, 10, 12, 10, 0, 0, 0⟩) false []
      (some 1) (some ⟨2026, 10, 11, 0, 0, 0, 0⟩)
      (some ⟨2026, 10, 11, 0, 0, 0, 0⟩) none).completed = false ∧
    ∃ d, (Task.mk "m" Priority.medium (some ⟨2026, 10, 12, 10, 0, 0, 0⟩)
        false [] (some 1) (some ⟨2026, 10, 11, 0, 0, 0, 0⟩)
        (some ⟨2026, 10, 11, 0, 0, 0, 0⟩) none).due_date = some d ∧
      keyNat (startOfDay (⟨2026, 10, 12, 9, 30, 0, 0⟩ : DateTime).dateOf) ≤
        keyNat d ∧
      keyNat d <
        keyNat (startOfDay
          (⟨2026, 10, 12, 9, 30, 0, 0⟩ : DateTime).dateOf.nextDay) :=
  (claim5_due_today ⟨2026, 10, 12, 9, 30, 0, 0⟩
    (DB.mk [Row.mk 1 "m" "medium" (some "2026-10-12T10:00:00") false none
      (some "2026-10-11T00:00:00") (some "2026-10-11T00:00:00") none] 2)
    [Task.mk "m" Priority.medium (some ⟨2026, 10, 12, 10, 0, 0, 0⟩) false []
      (some 1) (some ⟨2026, 10, 11, 0, 0, 0, 0⟩)
      (some ⟨2026, 10, 11, 0, 0, 0, 0⟩) none]
    (by decide) (by decide) (by decide)).2.2.1 _ (by decide)

/-- Claim C1 is violated by the code: get_overdue_tasks compares due-date
text against datetime.now().isoformat() (local time, 'T' separator) while
get_task_stats compares it against SQLite's datetime('now') (UTC, space
separator).  Even reading both clocks at the very same instant (and with
the local zone at UTC), a pending task due earlier the same day is
returned by get_overdue_tasks yet not counted by the stats overdue query,
because its text compares greater than the space-separated bound ('T' is
code point 84, ' ' is 32).  So the two overdue notions disagree on a state
where the true overdue count — pending, due date set, due before now — is
one. -/
theorem claim1_stats_overdue_mismatch :
    Storage.get_overdue_tasks
        (DB.mk [Row.mk 1 "t" "medium" (some "2026-10-12T08:00:00") false none
          (some "2026-10-01T00:00:00") (some "2026-10-01T00:00:00") none] 2)
        (isoStr ⟨2026, 10, 12, 9, 0, 0, 0⟩) =
      some [Task.mk "t" Priority.medium (some ⟨2026, 10, 12, 8, 0, 0, 0⟩)
        false [] (some 1) (some ⟨2026, 10, 1, 0, 0, 0, 0⟩)
        (some ⟨2026, 10, 1, 0, 0, 0, 0⟩) none] ∧
    (Storage.get_task_stats
        (DB.mk [Row.mk 1 "t" "medium" (some "2026-10-12T08:00:00") false none
          (some "2026-10-01T00:00:00") (some "2026-10-01T00:00:00") none] 2)
        ⟨2026, 10, 12, 9, 0, 0, 0⟩).overdue = 0 ∧
    keyNat ⟨2026, 10, 12, 8, 0, 0, 0⟩ < keyNat ⟨2026, 10, 12, 9, 0, 0, 0⟩ ∧
    fromIso "2026-10-12T08:00:00" = some ⟨2026, 10, 12, 8, 0, 0, 0⟩ := by
  refine ⟨?_, ?_, ?_, ?_⟩
  · decide
  · decide
  · decide
  · decide

end TodoMaster
